import Mathlib

/-!
# matchchains_index: index construction pipeline

A shallow embedding of `src/matchchains_index.cpp` (function `main`) and of the part of
`ReadStorage::iterateReadsFromFile` it drives.

Modelling conventions.

* A `std::string` is a `List Char`; a `std::vector` is a `List`.
* `phmap::flat_hash_set<uint64_t>` is a list of keys, `phmap::flat_hash_map<uint64_t, uint32_t>`
  is an association list with unique keys in insertion order (the program never iterates over
  either container, so the iteration order of the real containers is irrelevant).
* A binary file is the list of the fixed-width fields written to it, in order.  The temporary
  positions file is written and read back with the same field widths, so it is a `List Nat` of
  field values.  The two output files are only written, and are kept as records.
* Narrowing stores are explicit: `uint32_t read = readName`, `uint32_t count = hashes.size()`
  and the `uint32_t` mapped value of `hashToIndex` reduce modulo `2 ^ 32`; the coverage
  entries and the `size_t` totals reduce modulo `2 ^ 64`.  `readLength` and
  `countAboveThreshold` are bounded by the size of a container and need no reduction.
* The hash extractor `MatchIndex::iterateWindowChunksFromRead` is external: a read carries the
  list of `(hash, startPos, endPos)` triples its callback collects into `hashes`.
* Reads are delivered to the callback in storage order (the default `-t 1`); the callback
  runs under `indexMutex` from line 84 on, so one call is one state transition.
* Diagnostics written to `std::cerr` are not modelled, except the three counters of the
  coverage filter, which stay in the state.
-/

namespace MatchchainsIndex

/-- An element of `hashes` in the ingestion callback: `(hash, startPos, endPos)`. -/
abbrev HashTriple := Nat × Nat × Nat

/-- An element of `hashes` in the compaction pass: `(index, startPos, endPos)`. -/
abbrev IndexTriple := Nat × Nat × Nat

/-- One input read: its name, its sequence, and the triples the hash extractor produces. -/
structure Read where
  name : List Char
  sequence : List Char
  hashes : List HashTriple
deriving DecidableEq, Repr

/-- The command line values used by the pipeline. -/
structure Config where
  k : Nat
  numWindows : Nat
  windowSize : Nat
  numHashPasses : Nat
  maxCoverage : Nat
  hpc : Bool
  keepSequenceNameTags : Bool
deriving DecidableEq, Repr

/-- The default of `maxCoverage`: `std::numeric_limits<size_t>::max()`. -/
def sizeMax : Nat := 2 ^ 64 - 1

/-! ## Ingestion -/

/-- The variables the ingestion callback mutates, together with the members `names` and
`rawReadLengths` of `ReadStorage`. -/
structure Ingest where
  numReads : Nat
  numHashes : Nat
  tmpPositionsFile : List Nat
  tmpHashesFiles : List (List Nat)
  readLengths : List Nat
  names : List (List Char)
  rawReadLengths : List Nat
deriving DecidableEq, Repr

/-- The loop `for (i = 1; i < sequence.size(); i++) if (sequence[i] != sequence[i-1]) readLength += 1`,
started with the current value of `readLength`. -/
def hpcLoop : List Char → Nat → Nat
  | a :: b :: rest, readLength => hpcLoop (b :: rest) (if b ≠ a then readLength + 1 else readLength)
  | _, readLength => readLength

/-- The value `readLength` of the callback (lines 85-93). -/
def readLength (hpc : Bool) (sequence : List Char) : Nat :=
  if hpc then hpcLoop sequence 1 else sequence.length

/-- One iteration of `for (auto t : hashes)` in the callback (lines 102-108). -/
def writeTriple (numHashPasses : Nat) (st : Ingest) (t : HashTriple) : Ingest :=
  { st with
    tmpHashesFiles := st.tmpHashesFiles.modify (fun file => file ++ [t.1]) (t.1 % numHashPasses)
    tmpPositionsFile := st.tmpPositionsFile ++ [t.1, t.2.1, t.2.2] }

/-- The statements `while (readLengths.size() <= readName) readLengths.emplace_back();
readLengths[readName] = readLength`. -/
def setReadLength (readLengths : List Nat) (readName len : Nat) : List Nat :=
  (readLengths ++ List.replicate (readName + 1 - readLengths.length) 0).set readName len

/-- The callback passed to `iterateReadsFromFile` (lines 74-109), after hash extraction. -/
def indexRead (cfg : Config) (st : Ingest) (readName : Nat) (r : Read) : Ingest :=
  if r.hashes.length = 0 then st
  else
    r.hashes.foldl (writeTriple cfg.numHashPasses)
      { st with
        readLengths := setReadLength st.readLengths readName (readLength cfg.hpc r.sequence)
        numReads := (st.numReads + 1) % 2 ^ 64
        numHashes := (st.numHashes + r.hashes.length) % 2 ^ 64
        tmpPositionsFile :=
          st.tmpPositionsFile ++ [readName % 2 ^ 32, r.hashes.length % 2 ^ 32] }

/-- The body of `ReadStorage::iterateReadsFromFile` for one read (with `store = false`): the
read gets the next dense id `names.size()`, its name and raw length are stored, and the
callback runs. -/
def iterateRead (cfg : Config) (st : Ingest) (r : Read) : Ingest :=
  indexRead cfg
    { st with
      names := st.names ++ [r.name]
      rawReadLengths := st.rawReadLengths ++ [r.sequence.length] }
    st.names.length r

/-- The state before the first read: `numHashPasses` empty partition files. -/
def Ingest.init (cfg : Config) : Ingest :=
  { numReads := 0, numHashes := 0, tmpPositionsFile := [],
    tmpHashesFiles := List.replicate cfg.numHashPasses [], readLengths := [], names := [],
    rawReadLengths := [] }

/-- The ingestion stage over all reads of all input files. -/
def ingest (cfg : Config) (corpus : List Read) : Ingest :=
  corpus.foldl (iterateRead cfg) (Ingest.init cfg)

/-! ## Frequency resolver -/

/-- The variables of one pass of the resolver loop. -/
structure Pass where
  seenOnce : List Nat
  hashToIndex : List (Nat × Nat)
  indexCoverage : List Nat
deriving DecidableEq, Repr

/-- The body of `while (hashPass.good())` for one fingerprint read (lines 129-146). -/
def readHash (st : Pass) (hash : Nat) : Pass :=
  if hash ∈ st.seenOnce then
    match st.hashToIndex.lookup hash with
    | none =>
      { st with
        hashToIndex := st.hashToIndex ++ [(hash, st.hashToIndex.length % 2 ^ 32)]
        indexCoverage := st.indexCoverage ++ [2] }
    | some index =>
      { st with
        indexCoverage :=
          st.indexCoverage.set index ((st.indexCoverage.getD index 0 + 1) % 2 ^ 64) }
  else
    { st with seenOnce := hash :: st.seenOnce }

/-- The variables that survive the resolver loop. -/
structure Tables where
  hashToIndex : List (Nat × Nat)
  indexCoverage : List Nat
  totalDistinctHashes : Nat
deriving DecidableEq, Repr

/-- The state of a pass that starts on a fresh partition file. -/
def Tables.start (tables : Tables) : Pass :=
  { seenOnce := [], hashToIndex := tables.hashToIndex, indexCoverage := tables.indexCoverage }

/-- One iteration of `for (i = 0; i < numHashPasses; i++)` (lines 119-149) over partition
file `file`.  The assertion `hash % numHashPasses == i` has no effect on the state; that it
holds for the files ingestion writes is `partition_assert`. -/
def hashPass (tables : Tables) (file : List Nat) : Tables :=
  let st := file.foldl readHash tables.start
  { hashToIndex := st.hashToIndex, indexCoverage := st.indexCoverage,
    totalDistinctHashes := (tables.totalDistinctHashes + st.seenOnce.length) % 2 ^ 64 }

/-- The tables before the first pass. -/
def Tables.empty : Tables :=
  { hashToIndex := [], indexCoverage := [], totalDistinctHashes := 0 }

/-- The resolver loop over the partition files, in file order. -/
def resolve (tmpHashesFiles : List (List Nat)) : Tables :=
  tmpHashesFiles.foldl hashPass Tables.empty

/-! ## Coverage filter -/

/-- The tables together with the three counters of the coverage filter. -/
structure Filter where
  hashToIndex : List (Nat × Nat)
  indexCoverage : List Nat
  countAboveThreshold : Nat
  maxHashCoverage : Nat
  maxIndexedCoverage : Nat
deriving DecidableEq, Repr

/-- The body of the filter loop for the entry `coverage = indexCoverage[i]` (lines 159-167). -/
def filterStep (maxCoverage : Nat) (st : Filter) (coverage : Nat) : Filter :=
  let st1 :=
    if coverage > maxCoverage then
      { st with countAboveThreshold := st.countAboveThreshold + 1 }
    else
      { st with maxIndexedCoverage := max st.maxIndexedCoverage coverage }
  { st1 with maxHashCoverage := max st1.maxHashCoverage coverage }

/-- The coverage filter (lines 154-168). -/
def coverageFilter (maxCoverage : Nat) (tables : Tables) : Filter :=
  tables.indexCoverage.foldl (filterStep maxCoverage)
    { hashToIndex := tables.hashToIndex, indexCoverage := tables.indexCoverage,
      countAboveThreshold := 0, maxHashCoverage := 0, maxIndexedCoverage := 0 }

/-! ## Metadata writer -/

/-- The fields of the metadata file, in the order they are written. -/
structure Metadata where
  ishpc : Nat
  k : Nat
  numWindows : Nat
  windowSize : Nat
  maxCoverage : Nat
  countHashes : Nat
  countReads : Nat
  reads : List (Nat × Nat × List Char)
deriving DecidableEq, Repr

/-- The expression `name.substr(0, name.find_first_of(" \t\r\n"))`. -/
def stripTags (name : List Char) : List Char :=
  name.takeWhile (fun c => !(c == ' ' || c == '\t' || c == '\r' || c == '\n'))

/-- The per-read entry `(readLength, nameLength, name)` of the metadata loop (lines 188-194). -/
def metadataEntry (keepSequenceNameTags : Bool) (readNames : List (List Char))
    (readLengths : List Nat) (read : Nat) : Nat × Nat × List Char :=
  let name := if keepSequenceNameTags then readNames.getD read [] else stripTags (readNames.getD read [])
  (readLengths.getD read 0, name.length, name)

/-- The metadata writer (lines 174-196). -/
def indexMetadata (cfg : Config) (ing : Ingest) (tables : Tables) : Metadata :=
  { ishpc := if cfg.hpc then 1 else 0
    k := cfg.k
    numWindows := cfg.numWindows
    windowSize := cfg.windowSize
    maxCoverage := cfg.maxCoverage
    countHashes := tables.hashToIndex.length
    countReads := ing.readLengths.length
    reads := (List.range ing.readLengths.length).map
      (metadataEntry cfg.keepSequenceNameTags ing.names ing.readLengths) }

/-! ## Compaction pass -/

/-- One record of the final index file: `read`, `count` and the `count` triples. -/
structure IndexRecord where
  read : Nat
  count : Nat
  hashes : List IndexTriple
deriving DecidableEq, Repr

/-- The loop `for (i = 0; i < count; i++)` of the compaction pass (lines 207-218): `count`
iterations left, `stream` the unread part of the file, `hashes` the triples kept so far.
The result is `none` when the file ends inside the group or a coverage lookup is out of
bounds (both undefined in the source). -/
def readTriples (hashToIndex : List (Nat × Nat)) (indexCoverage : List Nat) (maxCoverage : Nat) :
    Nat → List Nat → List IndexTriple → Option (List IndexTriple × List Nat)
  | 0, stream, hashes => some (hashes, stream)
  | count + 1, hash :: startPos :: endPos :: stream, hashes =>
    match hashToIndex.lookup hash with
    | none => readTriples hashToIndex indexCoverage maxCoverage count stream hashes
    | some index =>
      match indexCoverage[index]? with
      | none => none
      | some coverage =>
        if coverage > maxCoverage then
          readTriples hashToIndex indexCoverage maxCoverage count stream hashes
        else
          readTriples hashToIndex indexCoverage maxCoverage count stream
            (hashes ++ [(index, startPos, endPos)])
  | _ + 1, _, _ => none

/-- The variables the compaction loop writes. -/
structure Compaction where
  indexFile : List IndexRecord
  numIndexedHashes : Nat
deriving DecidableEq, Repr

/-- The loop `while (redoPositions.good())` (lines 199-230).  Reading the group header from a
stream with fewer than two fields left ends the loop; `fuel` bounds the number of groups. -/
def redoPositions (hashToIndex : List (Nat × Nat)) (indexCoverage : List Nat) (maxCoverage : Nat) :
    Nat → List Nat → Compaction → Option Compaction
  | _, [], out => some out
  | _, [_], out => some out
  | 0, _ :: _ :: _, _ => none
  | fuel + 1, read :: count :: stream, out =>
    match readTriples hashToIndex indexCoverage maxCoverage count stream [] with
    | none => none
    | some (hashes, rest) =>
      if hashes.length = 0 then
        redoPositions hashToIndex indexCoverage maxCoverage fuel rest out
      else
        redoPositions hashToIndex indexCoverage maxCoverage fuel rest
          { indexFile := out.indexFile ++
              [{ read := read, count := hashes.length % 2 ^ 32, hashes := hashes }]
            numIndexedHashes := (out.numIndexedHashes + hashes.length % 2 ^ 32) % 2 ^ 64 }

/-- The compaction pass over the whole temporary positions file. -/
def compactionPass (tables : Tables) (maxCoverage : Nat) (tmpPositionsFile : List Nat) :
    Option Compaction :=
  redoPositions tables.hashToIndex tables.indexCoverage maxCoverage tmpPositionsFile.length
    tmpPositionsFile { indexFile := [], numIndexedHashes := 0 }

/-! ## The whole program -/

/-- Everything `main` produces: the filter report, the metadata file and the index file. -/
structure Output where
  filter : Filter
  metadata : Metadata
  compaction : Compaction
deriving DecidableEq, Repr

/-- The tables the resolver builds for a corpus. -/
def resolved (cfg : Config) (corpus : List Read) : Tables :=
  resolve (ingest cfg corpus).tmpHashesFiles

/-- The program `main` from the ingestion loop on (lines 59-233). -/
def main (cfg : Config) (corpus : List Read) : Option Output :=
  let ing := ingest cfg corpus
  let tables := resolve ing.tmpHashesFiles
  let filter := coverageFilter cfg.maxCoverage tables
  let metadata := indexMetadata cfg ing tables
  match compactionPass tables cfg.maxCoverage ing.tmpPositionsFile with
  | none => none
  | some compaction => some { filter := filter, metadata := metadata, compaction := compaction }

/-! ## Specification-side vocabulary -/

/-- The fingerprints of all triples of all reads, in corpus order. -/
def allHashes (corpus : List Read) : List Nat :=
  corpus.flatMap (fun r => r.hashes.map Prod.fst)

/-- The fingerprints of `hs` that belong to partition `i` of `numHashPasses`. -/
def partitionOf (numHashPasses : Nat) (hs : List Nat) (i : Nat) : List Nat :=
  hs.filter (fun h => h % numHashPasses = i)

/-- The fingerprints of `stream` that are met a second time, in the order of their second
sighting: scanning `stream` after the already consumed `pre`, a fingerprint is listed at
the position where it has been seen exactly once before. -/
def secondSightingsFrom (pre : List Nat) : List Nat → List Nat
  | [] => []
  | h :: rest =>
    if pre.count h = 1 then h :: secondSightingsFrom (pre ++ [h]) rest
    else secondSightingsFrom (pre ++ [h]) rest

/-- The fingerprints of `stream` in the order in which they reach their second sighting. -/
def secondSightings (stream : List Nat) : List Nat :=
  secondSightingsFrom [] stream

/-! ## Invariants of the resolver -/

/-- The invariant of the two tables after the fingerprints `done` have been consumed. -/
structure TablesInv (tab : List (Nat × Nat)) (cov : List Nat) (done : List Nat) : Prop where
  keys : tab.map Prod.fst = secondSightings done
  vals : tab.map Prod.snd = (List.range tab.length).map (fun j => j % 2 ^ 32)
  covLen : cov.length = tab.length

/-- The invariant of a pass: `earlier` are the fingerprints of the finished partition files,
`cur` the consumed part of the current file. -/
structure PassInv (st : Pass) (earlier cur : List Nat) : Prop where
  tables : TablesInv st.hashToIndex st.indexCoverage (earlier ++ cur)
  seen : ∀ x, x ∈ st.seenOnce ↔ x ∈ cur

/-- The coverage invariant: entry `i` of the coverage table counts the consumed occurrences
of the fingerprint of entry `i` of the index table, modulo the width of `size_t`. -/
def CovInv (tab : List (Nat × Nat)) (cov : List Nat) (done : List Nat) : Prop :=
  cov = tab.map (fun e => done.count e.1 % 2 ^ 64)

/-- The pass state after `j` fingerprints of partition file `i` have been consumed (the
files before `i` are finished). -/
def resolverAfter (files : List (List Nat)) (i j : Nat) : Pass :=
  ((files.getD i []).take j).foldl readHash (resolve (files.take i)).start

/-- The fingerprints consumed at that point, in processing order. -/
def consumed (files : List (List Nat)) (i j : Nat) : List Nat :=
  (files.take i).flatten ++ (files.getD i []).take j

/-- No fingerprint occurs in two different partition files. -/
def DisjointFiles (files : List (List Nat)) : Prop :=
  files.Pairwise (fun f g => ∀ x ∈ g, x ∉ f)

/-- The full invariant of the tables: the structural part, and the coverage part as long as
the index table fits the `uint32_t` index type. -/
def Resolved (tab : List (Nat × Nat)) (cov : List Nat) (done : List Nat) : Prop :=
  TablesInv tab cov done ∧ ((secondSightings done).length ≤ 2 ^ 32 → CovInv tab cov done)

/-- The distinct fingerprints that occur at least twice in the corpus. -/
def indexedFingerprints (corpus : List Read) : List Nat :=
  (allHashes corpus).dedup.filter (fun h => 2 ≤ (allHashes corpus).count h)

/-- The fingerprint to coverage mapping of the two tables. -/
def coverageOf (tables : Tables) (hash : Nat) : Option Nat :=
  (tables.hashToIndex.lookup hash).bind (fun index => tables.indexCoverage[index]?)

/-- The maximal runs of identical consecutive symbols of a sequence, in the words of the
specification. -/
def maximalRuns (sequence : List Char) : List (List Char) :=
  sequence.splitBy (fun a b => a == b)

/-! ## Specification-side vocabulary for the compaction pass -/

/-- The fields of one triple in the temporary positions file. -/
def tripleFields (t : HashTriple) : List Nat :=
  [t.1, t.2.1, t.2.2]

/-- The fields of the group of a read with id `read` and triples `triples` in the temporary
positions file, with `count` the number of triples. -/
def groupFields (g : Nat × List HashTriple) : List Nat :=
  g.1 :: g.2.length :: g.2.flatMap tripleFields

/-- The fate of one raw triple in the words of the specification: it is dropped when its
fingerprint has no compact index or when the coverage of its index is above the threshold;
otherwise the fingerprint is replaced by the compact index. -/
def survivingTriple (hashToIndex : List (Nat × Nat)) (indexCoverage : List Nat)
    (maxCoverage : Nat) (t : HashTriple) : Option IndexTriple :=
  match hashToIndex.lookup t.1 with
  | none => none
  | some index =>
    if indexCoverage.getD index 0 > maxCoverage then none else some (index, t.2.1, t.2.2)

/-- The surviving triples of a read in the words of the specification: the raw triples whose
fingerprint has a compact index with coverage at most the threshold, in their original order,
each with the fingerprint replaced by its compact index. -/
def survivingTriples (hashToIndex : List (Nat × Nat)) (indexCoverage : List Nat)
    (maxCoverage : Nat) (triples : List HashTriple) : List IndexTriple :=
  triples.filterMap (survivingTriple hashToIndex indexCoverage maxCoverage)

/-- The record the specification expects for a group: none when no triple survives. -/
def expectedRecord (hashToIndex : List (Nat × Nat)) (indexCoverage : List Nat)
    (maxCoverage : Nat) (g : Nat × List HashTriple) : Option IndexRecord :=
  let s := survivingTriples hashToIndex indexCoverage maxCoverage g.2
  if s.length = 0 then none else some { read := g.1, count := s.length % 2 ^ 32, hashes := s }

/-- Every index stored in the index table is a position of the coverage table. -/
def InBounds (hashToIndex : List (Nat × Nat)) (indexCoverage : List Nat) : Prop :=
  ∀ e ∈ hashToIndex, e.2 < indexCoverage.length

/-- The groups of the temporary positions file for the reads `corpus`, the first of which has
id `start`: one group `(read, hashes)` for every read with at least one triple. -/
def groupsFrom (start : Nat) (corpus : List Read) : List (Nat × List HashTriple) :=
  (corpus.enumFrom start).filterMap
    (fun p => if p.2.hashes.length = 0 then none else some (p.1 % 2 ^ 32, p.2.hashes))

/-! ## Sample inputs -/

/-- A configuration with two partition files and the default unbounded threshold. -/
def sampleConfig : Config :=
  { k := 201, numWindows := 4, windowSize := 500, numHashPasses := 2, maxCoverage := sizeMax,
    hpc := true, keepSequenceNameTags := false }

/-- Tables with two indexed fingerprints, of coverage 2 and 5. -/
def sampleTables : Tables :=
  { hashToIndex := [(7, 0), (8, 1)], indexCoverage := [2, 5], totalDistinctHashes := 3 }

/-- A temporary positions file of two groups. -/
def sampleGroups : List (Nat × List HashTriple) :=
  [(0, [(7, 10, 20), (9, 11, 21), (8, 12, 22), (7, 13, 23)]), (1, [(8, 0, 5)])]

/-- Two reads, the first of which has no triples. -/
def gapCorpus : List Read :=
  [ { name := "r0".toList, sequence := "ACGT".toList, hashes := [] },
    { name := "r1".toList, sequence := "AACC".toList, hashes := [(7, 0, 3)] } ]

/-- Four reads: fingerprint 7 occurs three times, fingerprint 8 twice, fingerprint 9 once;
the last read has no triples. -/
def sampleCorpus : List Read :=
  [ { name := "r0 tag".toList, sequence := "AACG".toList, hashes := [(7, 0, 3), (8, 1, 4)] },
    { name := "r1".toList, sequence := "ACGT".toList, hashes := [(7, 1, 4), (9, 0, 2), (7, 0, 1)] },
    { name := "r2".toList, sequence := "TTTT".toList, hashes := [(8, 0, 3)] },
    { name := "r3".toList, sequence := "TTTA".toList, hashes := [] } ]

/-! ## Ingestion lemmas -/

theorem modify_map_range (N j : Nat) (f : Nat → List Nat) (g : List Nat → List Nat) :
    ((List.range N).map f).modify g j
      = (List.range N).map (fun i => if i = j then g (f i) else f i) := by
  apply List.ext_getElem?
  intro m
  rw [List.getElem?_modify]
  by_cases hm : m < N
  · simp [List.getElem?_range hm, hm]
    by_cases hj : j = m
    · simp [hj]
    · simp [hj, Ne.symm hj]
  · have : (List.range N)[m]? = none := by simp [List.getElem?_eq_none_iff]; omega
    simp [this]

theorem partitionOf_snoc (N : Nat) (done : List Nat) (h i : Nat) :
    partitionOf N (done ++ [h]) i
      = if i = h % N then partitionOf N done i ++ [h] else partitionOf N done i := by
  unfold partitionOf
  by_cases hi : i = h % N
  · simp [List.filter_append, hi]
  · simp [List.filter_append, hi, Ne.symm hi]

theorem writeTriple_files (N : Nat) (st : Ingest) (t : HashTriple) (done : List Nat)
    (h : st.tmpHashesFiles = (List.range N).map (partitionOf N done)) :
    (writeTriple N st t).tmpHashesFiles = (List.range N).map (partitionOf N (done ++ [t.1])) := by
  simp only [writeTriple, h, modify_map_range]
  apply List.map_congr_left
  intro i _
  rw [partitionOf_snoc]

theorem foldl_writeTriple_files (N : Nat) (hs : List HashTriple) :
    ∀ (st : Ingest) (done : List Nat),
      st.tmpHashesFiles = (List.range N).map (partitionOf N done) →
      (hs.foldl (writeTriple N) st).tmpHashesFiles
        = (List.range N).map (partitionOf N (done ++ hs.map Prod.fst)) := by
  induction hs with
  | nil => intro st done h; simpa using h
  | cons t ts ih =>
    intro st done h
    have := ih (writeTriple N st t) (done ++ [t.1]) (writeTriple_files N st t done h)
    simpa [List.foldl_cons, List.append_assoc] using this

theorem iterateRead_files (cfg : Config) (st : Ingest) (r : Read) (done : List Nat)
    (h : st.tmpHashesFiles = (List.range cfg.numHashPasses).map (partitionOf cfg.numHashPasses done)) :
    (iterateRead cfg st r).tmpHashesFiles
      = (List.range cfg.numHashPasses).map
          (partitionOf cfg.numHashPasses (done ++ r.hashes.map Prod.fst)) := by
  unfold iterateRead indexRead
  split
  · next h0 =>
    have : r.hashes = [] := List.length_eq_zero.mp h0
    simpa [this] using h
  · exact foldl_writeTriple_files _ _ _ _ h

theorem foldl_iterateRead_files (cfg : Config) (corpus : List Read) :
    ∀ (st : Ingest) (done : List Nat),
      st.tmpHashesFiles = (List.range cfg.numHashPasses).map (partitionOf cfg.numHashPasses done) →
      (corpus.foldl (iterateRead cfg) st).tmpHashesFiles
        = (List.range cfg.numHashPasses).map
            (partitionOf cfg.numHashPasses (done ++ allHashes corpus)) := by
  induction corpus with
  | nil => intro st done h; simpa [allHashes] using h
  | cons r rs ih =>
    intro st done h
    have := ih (iterateRead cfg st r) _ (iterateRead_files cfg st r done h)
    simpa [allHashes, List.flatMap_cons, List.append_assoc] using this

/-- The partition files after ingestion: file `i` holds, in corpus order, the fingerprints
congruent to `i` modulo `numHashPasses`. -/
theorem ingest_files (cfg : Config) (corpus : List Read) :
    (ingest cfg corpus).tmpHashesFiles
      = (List.range cfg.numHashPasses).map (partitionOf cfg.numHashPasses (allHashes corpus)) := by
  have := foldl_iterateRead_files cfg corpus (Ingest.init cfg) []
    (by
      apply List.ext_getElem?
      intro m
      by_cases hm : m < cfg.numHashPasses
      · simp [Ingest.init, partitionOf, List.getElem?_range hm, hm, List.getElem?_replicate]
      · have : (List.range cfg.numHashPasses)[m]? = none := by
          simp [List.getElem?_eq_none_iff]; omega
        simp [Ingest.init, hm, List.getElem?_replicate, this])
  simpa [ingest] using this

/-! ## Second sightings -/

theorem secondSightingsFrom_append (s t : List Nat) :
    ∀ pre, secondSightingsFrom pre (s ++ t)
      = secondSightingsFrom pre s ++ secondSightingsFrom (pre ++ s) t := by
  induction s with
  | nil => intro pre; simp [secondSightingsFrom]
  | cons a s ih =>
    intro pre
    simp only [List.cons_append, secondSightingsFrom]
    split <;> simp [ih, List.append_assoc]

theorem secondSightings_append (s t : List Nat) :
    secondSightings (s ++ t) = secondSightings s ++ secondSightingsFrom s t := by
  simp [secondSightings, secondSightingsFrom_append]

theorem secondSightings_snoc (s : List Nat) (h : Nat) :
    secondSightings (s ++ [h])
      = secondSightings s ++ (if s.count h = 1 then [h] else []) := by
  rw [secondSightings_append]
  simp only [secondSightingsFrom, List.nil_append]

theorem mem_secondSightings (s : List Nat) (x : Nat) :
    x ∈ secondSightings s ↔ 2 ≤ s.count x := by
  induction s using List.reverseRecOn with
  | nil => simp [secondSightings, secondSightingsFrom]
  | append_singleton s h ih =>
    rw [secondSightings_snoc, List.mem_append, ih, List.count_append]
    by_cases hx : h = x
    · subst hx
      by_cases h1 : s.count h = 1
      · simp [h1]
      · simp only [h1, if_false, List.not_mem_nil, or_false, List.count_singleton_self]
        omega
    · have : List.count x [h] = 0 := by simp [List.count_singleton, hx]
      rw [this]
      by_cases h1 : s.count h = 1
      · simp [h1, Ne.symm hx]
      · simp [h1]

theorem nodup_secondSightings (s : List Nat) : (secondSightings s).Nodup := by
  induction s using List.reverseRecOn with
  | nil => simp [secondSightings, secondSightingsFrom]
  | append_singleton s h ih =>
    rw [secondSightings_snoc]
    by_cases h1 : s.count h = 1
    · simp only [h1, if_true]
      rw [List.nodup_append]
      refine ⟨ih, List.nodup_singleton h, ?_⟩
      intro a ha hb
      rw [List.mem_singleton] at hb
      subst hb
      rw [mem_secondSightings] at ha
      omega
    · simpa [h1] using ih

theorem length_secondSightings_le (s t : List Nat) :
    (secondSightings s).length ≤ (secondSightings (s ++ t)).length := by
  rw [secondSightings_append, List.length_append]
  omega

/-! ## Resolver invariant -/

theorem lookup_eq_none_iff_not_mem_keys (tab : List (Nat × Nat)) (h : Nat) :
    tab.lookup h = none ↔ h ∉ tab.map Prod.fst := by
  induction tab with
  | nil => simp
  | cons e tab ih =>
    obtain ⟨k, v⟩ := e
    by_cases hk : h = k
    · subst hk; simp [List.lookup_cons]
    · have : (h == k) = false := by simpa using hk
      simp [List.lookup_cons, this, ih, hk]

theorem lookup_isSome_iff_mem_keys (tab : List (Nat × Nat)) (h : Nat) :
    (∃ idx, tab.lookup h = some idx) ↔ h ∈ tab.map Prod.fst := by
  rw [← not_iff_not, ← lookup_eq_none_iff_not_mem_keys]
  cases tab.lookup h <;> simp

theorem lookup_lt_of_vals (tab : List (Nat × Nat)) (h idx : Nat)
    (hv : tab.map Prod.snd = (List.range tab.length).map (fun j => j % 2 ^ 32))
    (hl : tab.lookup h = some idx) : idx < tab.length := by
  obtain ⟨l₁, l₂, htab, -⟩ := List.lookup_eq_some_iff.mp hl
  have hmem : idx ∈ tab.map Prod.snd := by
    rw [htab]; simp
  rw [hv, List.mem_map] at hmem
  obtain ⟨j, hj, rfl⟩ := hmem
  rw [List.mem_range] at hj
  exact lt_of_le_of_lt (Nat.mod_le _ _) hj

theorem readHash_inv (st : Pass) (earlier cur : List Nat) (h : Nat)
    (inv : PassInv st earlier cur) (hne : h ∉ earlier) :
    PassInv (readHash st h) earlier (cur ++ [h]) := by
  obtain ⟨⟨hk, hv, hc⟩, hs⟩ := inv
  have hcount : (earlier ++ cur).count h = cur.count h := by
    rw [List.count_append, List.count_eq_zero_of_not_mem hne, Nat.zero_add]
  unfold readHash
  by_cases hmem : h ∈ st.seenOnce
  · rw [if_pos hmem]
    have hcur : h ∈ cur := (hs h).mp hmem
    have hpos : 0 < cur.count h := List.count_pos_iff.mpr hcur
    cases hl : st.hashToIndex.lookup h with
    | none =>
      have hnk : h ∉ secondSightings (earlier ++ cur) := by
        rw [← hk]; exact (lookup_eq_none_iff_not_mem_keys _ _).mp hl
      rw [mem_secondSightings, hcount] at hnk
      have h1 : (earlier ++ cur).count h = 1 := by omega
      refine ⟨⟨?_, ?_, ?_⟩, ?_⟩
      · simp only [List.map_append, List.map_cons, List.map_nil, hk]
        rw [← List.append_assoc, secondSightings_snoc, if_pos h1]
      · simp only [List.map_append, List.map_cons, List.map_nil, hv, List.length_append,
          List.length_singleton, List.range_succ]
      · simp [hc]
      · intro x
        rw [hs x, List.mem_append, List.mem_singleton]
        exact ⟨Or.inl, fun hx => hx.elim id (fun e => e ▸ hcur)⟩
    | some index =>
      have hik : h ∈ secondSightings (earlier ++ cur) := by
        rw [← hk]; exact (lookup_isSome_iff_mem_keys _ _).mp ⟨index, hl⟩
      rw [mem_secondSightings] at hik
      have h1 : ¬ (earlier ++ cur).count h = 1 := by omega
      refine ⟨⟨?_, ?_, ?_⟩, ?_⟩
      · simp only [hk]
        rw [← List.append_assoc, secondSightings_snoc, if_neg h1, List.append_nil]
      · exact hv
      · simp [hc]
      · intro x
        rw [hs x, List.mem_append, List.mem_singleton]
        exact ⟨Or.inl, fun hx => hx.elim id (fun e => e ▸ hcur)⟩
  · rw [if_neg hmem]
    have hcur : h ∉ cur := fun hc' => hmem ((hs h).mpr hc')
    have h1 : ¬ (earlier ++ cur).count h = 1 := by
      rw [hcount, List.count_eq_zero_of_not_mem hcur]; omega
    refine ⟨⟨?_, ?_, ?_⟩, ?_⟩
    · simp only [hk]
      rw [← List.append_assoc, secondSightings_snoc, if_neg h1, List.append_nil]
    · exact hv
    · exact hc
    · intro x
      rw [List.mem_cons, List.mem_append, List.mem_singleton, hs x]
      exact or_comm

theorem foldl_readHash_inv (earlier : List Nat) (rest : List Nat) :
    ∀ (st : Pass) (cur : List Nat), PassInv st earlier cur → (∀ x ∈ rest, x ∉ earlier) →
      PassInv (rest.foldl readHash st) earlier (cur ++ rest) := by
  induction rest with
  | nil => intro st cur inv _; simpa using inv
  | cons h rest ih =>
    intro st cur inv hd
    have h1 := readHash_inv st earlier cur h inv (hd h (List.mem_cons_self _ _))
    have h2 := ih (readHash st h) (cur ++ [h]) h1
      (fun x hx => hd x (List.mem_cons_of_mem _ hx))
    simpa [List.append_assoc] using h2

theorem lookup_position (tab : List (Nat × Nat)) (h index : Nat)
    (hv : tab.map Prod.snd = (List.range tab.length).map (fun j => j % 2 ^ 32))
    (hb : tab.length ≤ 2 ^ 32) (hl : tab.lookup h = some index) :
    ∃ hi : index < tab.length, tab[index] = (h, index) := by
  obtain ⟨l₁, l₂, htab, -⟩ := List.lookup_eq_some_iff.mp hl
  subst htab
  have hlen : l₁.length < (l₁ ++ (h, index) :: l₂).length := by simp
  have hget : (l₁ ++ (h, index) :: l₂)[l₁.length] = (h, index) := by
    rw [List.getElem_append_right (Nat.le_refl _)]
    simp
  have h2 : ((l₁ ++ (h, index) :: l₂).map Prod.snd)[l₁.length]? = some index := by
    rw [List.getElem?_map, List.getElem?_eq_getElem hlen, hget]; rfl
  rw [hv, List.getElem?_map, List.getElem?_range hlen] at h2
  simp only [Option.map_some', Option.some.injEq] at h2
  have h3 : l₁.length % 2 ^ 32 = l₁.length := Nat.mod_eq_of_lt (by omega)
  rw [h3] at h2
  subst h2
  exact ⟨hlen, hget⟩

theorem keys_getElem_ne (tab : List (Nat × Nat)) (hnd : (tab.map Prod.fst).Nodup)
    (i j : Nat) (hi : i < tab.length) (hj : j < tab.length) (hij : i ≠ j) :
    tab[i].1 ≠ tab[j].1 := by
  intro he
  have hi1 : i < (tab.map Prod.fst).length := by simpa using hi
  have hj1 : j < (tab.map Prod.fst).length := by simpa using hj
  have key : (tab.map Prod.fst)[i] = (tab.map Prod.fst)[j] := by simpa using he
  exact hij ((List.Nodup.getElem_inj_iff hnd).mp key)

theorem readHash_cov (st : Pass) (earlier cur : List Nat) (h : Nat)
    (inv : PassInv st earlier cur) (hcov : CovInv st.hashToIndex st.indexCoverage (earlier ++ cur))
    (hne : h ∉ earlier) (hb : st.hashToIndex.length ≤ 2 ^ 32) :
    CovInv (readHash st h).hashToIndex (readHash st h).indexCoverage (earlier ++ cur ++ [h]) := by
  obtain ⟨⟨hk, hv, hc⟩, hs⟩ := inv
  have hnd : (st.hashToIndex.map Prod.fst).Nodup := hk ▸ nodup_secondSightings _
  have hcount : (earlier ++ cur).count h = cur.count h := by
    rw [List.count_append, List.count_eq_zero_of_not_mem hne, Nat.zero_add]
  unfold CovInv at hcov ⊢
  unfold readHash
  by_cases hmem : h ∈ st.seenOnce
  · rw [if_pos hmem]
    have hcur : h ∈ cur := (hs h).mp hmem
    have hpos : 0 < cur.count h := List.count_pos_iff.mpr hcur
    cases hl : st.hashToIndex.lookup h with
    | none =>
      have hnk' : h ∉ st.hashToIndex.map Prod.fst := (lookup_eq_none_iff_not_mem_keys _ _).mp hl
      have hnk : h ∉ secondSightings (earlier ++ cur) := hk ▸ hnk'
      rw [mem_secondSightings, hcount] at hnk
      have h1 : (earlier ++ cur).count h = 1 := by omega
      simp only
      rw [List.map_append, hcov]
      congr 1
      · apply List.map_congr_left
        intro e he
        have : e.1 ≠ h := fun hh => hnk' (hh ▸ List.mem_map_of_mem Prod.fst he)
        rw [List.count_append _ _ [h]]
        simp [List.count_singleton, this]
      · simp only [List.map_cons, List.map_nil]
        rw [List.count_append _ _ [h], h1]
        simp
    | some index =>
      obtain ⟨hi, hget⟩ := lookup_position _ _ _ hv hb hl
      simp only
      apply List.ext_getElem
      · simp [hc]
      · intro i h1 h2
        have hit : i < st.hashToIndex.length := by simpa using h2
        have hic : i < st.indexCoverage.length := by simpa using h1
        rw [List.getElem_set, List.getElem_map]
        by_cases hii : index = i
        · subst hii
          rw [if_pos rfl, hget]
          have hg : st.indexCoverage.getD index 0
              = (earlier ++ cur).count h % 2 ^ 64 := by
            rw [List.getD_eq_getElem _ _ hic]
            simp only [hcov, List.getElem_map, hget]
          rw [hg]
          simp only [List.count_append, List.count_singleton_self]
          omega
        · rw [if_neg hii]
          have hne2 : st.hashToIndex[i].1 ≠ h := by
            have := keys_getElem_ne _ hnd i index hit hi (Ne.symm hii)
            rwa [hget] at this
          simp only [hcov, List.getElem_map]
          rw [List.count_append _ _ [h]]
          simp [List.count_singleton, hne2]
  · rw [if_neg hmem]
    have hcur : h ∉ cur := fun hc' => hmem ((hs h).mpr hc')
    simp only
    rw [hcov]
    apply List.map_congr_left
    intro e he
    have hek : e.1 ∈ secondSightings (earlier ++ cur) :=
      hk ▸ List.mem_map_of_mem Prod.fst he
    rw [mem_secondSightings] at hek
    have hin : e.1 ∈ earlier ++ cur := List.count_pos_iff.mp (by omega)
    have : e.1 ≠ h := by
      intro hh
      rw [hh, List.mem_append] at hin
      exact hin.elim hne hcur
    rw [List.count_append _ _ [h]]
    simp [List.count_singleton, this]

theorem foldl_readHash_cov (earlier : List Nat) (rest : List Nat) :
    ∀ (st : Pass) (cur : List Nat), PassInv st earlier cur →
      CovInv st.hashToIndex st.indexCoverage (earlier ++ cur) →
      (∀ x ∈ rest, x ∉ earlier) →
      (secondSightings (earlier ++ cur ++ rest)).length ≤ 2 ^ 32 →
      CovInv (rest.foldl readHash st).hashToIndex (rest.foldl readHash st).indexCoverage
        (earlier ++ cur ++ rest) := by
  induction rest with
  | nil => intro st cur _ hcov _ _; simpa using hcov
  | cons h rest ih =>
    intro st cur inv hcov hd hb
    have hne := hd h (List.mem_cons_self _ _)
    have hlen : st.hashToIndex.length ≤ 2 ^ 32 := by
      have h1 : st.hashToIndex.length = (secondSightings (earlier ++ cur)).length := by
        rw [← inv.tables.keys, List.length_map]
      have h2 := length_secondSightings_le (earlier ++ cur) (h :: rest)
      omega
    have h1 := readHash_inv st earlier cur h inv hne
    have h2 := readHash_cov st earlier cur h inv hcov hne hlen
    have h3 := ih (readHash st h) (cur ++ [h]) h1 (by simpa [List.append_assoc] using h2)
      (fun x hx => hd x (List.mem_cons_of_mem _ hx)) (by simpa [List.append_assoc] using hb)
    simpa [List.append_assoc] using h3

theorem foldl_readHash_resolved (earlier file : List Nat) (t : Tables)
    (inv : Resolved t.hashToIndex t.indexCoverage earlier) (hd : ∀ x ∈ file, x ∉ earlier) :
    PassInv (file.foldl readHash t.start) earlier file ∧
      Resolved (file.foldl readHash t.start).hashToIndex
        (file.foldl readHash t.start).indexCoverage (earlier ++ file) := by
  have h0 : PassInv t.start earlier [] :=
    ⟨by simpa [Tables.start] using inv.1, by simp [Tables.start]⟩
  have h1 := foldl_readHash_inv earlier file t.start [] h0 hd
  rw [List.nil_append] at h1
  refine ⟨h1, h1.tables, ?_⟩
  intro hb
  have hb0 : (secondSightings earlier).length ≤ 2 ^ 32 :=
    le_trans (length_secondSightings_le earlier file) hb
  have := foldl_readHash_cov earlier file t.start [] h0
    (by simpa [Tables.start] using inv.2 hb0) hd (by simpa using hb)
  simpa using this

theorem hashPass_resolved (earlier file : List Nat) (t : Tables)
    (inv : Resolved t.hashToIndex t.indexCoverage earlier) (hd : ∀ x ∈ file, x ∉ earlier) :
    Resolved (hashPass t file).hashToIndex (hashPass t file).indexCoverage (earlier ++ file) :=
  (foldl_readHash_resolved earlier file t inv hd).2

theorem foldl_hashPass_resolved (files : List (List Nat)) :
    ∀ (t : Tables) (earlier : List Nat), Resolved t.hashToIndex t.indexCoverage earlier →
      (∀ f ∈ files, ∀ x ∈ f, x ∉ earlier) → DisjointFiles files →
      Resolved (files.foldl hashPass t).hashToIndex (files.foldl hashPass t).indexCoverage
        (earlier ++ files.flatten) := by
  induction files with
  | nil => intro t earlier inv _ _; simpa using inv
  | cons f fs ih =>
    intro t earlier inv hd hp
    rw [DisjointFiles, List.pairwise_cons] at hp
    have h1 := hashPass_resolved earlier f t inv (hd f (List.mem_cons_self _ _))
    have h2 := ih (hashPass t f) (earlier ++ f) h1
      (by
        intro g hg x hx hmem
        rw [List.mem_append] at hmem
        rcases hmem with hmem | hmem
        · exact hd g (List.mem_cons_of_mem _ hg) x hx hmem
        · exact hp.1 g hg x hx hmem)
      hp.2
    simpa [List.append_assoc] using h2

theorem resolved_empty : Resolved Tables.empty.hashToIndex Tables.empty.indexCoverage [] := by
  refine ⟨⟨?_, ?_, ?_⟩, ?_⟩ <;> simp [Tables.empty, secondSightings, secondSightingsFrom, CovInv]

theorem resolve_resolved (files : List (List Nat)) (hp : DisjointFiles files) :
    Resolved (resolve files).hashToIndex (resolve files).indexCoverage files.flatten := by
  have := foldl_hashPass_resolved files Tables.empty [] resolved_empty (by simp) hp
  simpa [resolve] using this

theorem disjointFiles_take (files : List (List Nat)) (hp : DisjointFiles files) (i : Nat) :
    DisjointFiles (files.take i) :=
  List.Pairwise.sublist (List.take_sublist i files) hp

theorem not_mem_take_flatten (files : List (List Nat)) (hp : DisjointFiles files) (i : Nat) :
    ∀ x ∈ files.getD i [], x ∉ (files.take i).flatten := by
  intro x hx hmem
  by_cases hi : i < files.length
  · have hsplit : files = files.take i ++ files[i] :: files.drop (i + 1) := by
      rw [List.getElem_cons_drop, List.take_append_drop]
    rw [DisjointFiles, hsplit, List.pairwise_append] at hp
    rw [List.mem_flatten] at hmem
    obtain ⟨f, hf, hxf⟩ := hmem
    have hx2 : x ∈ files[i] := by
      rw [List.getD_eq_getElem _ _ hi] at hx
      exact hx
    exact hp.2.2 f hf files[i] (List.mem_cons_self _ _) x hx2 hxf
  · rw [List.getD_eq_default _ _ (by omega)] at hx
    simp at hx

/-- The invariant holds after every step of the resolver. -/
theorem resolverAfter_resolved (files : List (List Nat)) (hp : DisjointFiles files) (i j : Nat) :
    PassInv (resolverAfter files i j) (files.take i).flatten ((files.getD i []).take j) ∧
      Resolved (resolverAfter files i j).hashToIndex (resolverAfter files i j).indexCoverage
        (consumed files i j) := by
  have h1 := resolve_resolved (files.take i) (disjointFiles_take files hp i)
  exact foldl_readHash_resolved _ _ _ h1
    (fun x hx => not_mem_take_flatten files hp i x (List.mem_of_mem_take hx))

/-! ## Partition files of a corpus -/

theorem disjointFiles_partition (N : Nat) (hs : List Nat) :
    DisjointFiles ((List.range N).map (partitionOf N hs)) := by
  rw [DisjointFiles, List.pairwise_map]
  refine List.Pairwise.imp ?_ (List.nodup_range N)
  intro a b hab x hxb hxa
  simp only [partitionOf, List.mem_filter, decide_eq_true_eq] at hxa hxb
  exact hab (hxa.2.symm.trans hxb.2)

theorem count_partitionOf (N : Nat) (hs : List Nat) (i h : Nat) :
    (partitionOf N hs i).count h = if h % N = i then hs.count h else 0 := by
  unfold partitionOf
  by_cases hi : h % N = i
  · rw [if_pos hi, List.count_filter (by simpa using hi)]
  · rw [if_neg hi]
    apply List.count_eq_zero_of_not_mem
    simp [List.mem_filter, hi]

theorem count_partitions (M : Nat) (hs : List Nat) (h : Nat) (K : Nat) :
    ((List.range K).map (partitionOf M hs)).flatten.count h
      = if h % M < K then hs.count h else 0 := by
  induction K with
  | zero => simp
  | succ K ih =>
    rw [List.range_succ, List.map_append, List.flatten_append, List.count_append, ih]
    simp only [List.map_cons, List.map_nil, List.flatten_cons, List.flatten_nil, List.append_nil,
      count_partitionOf]
    by_cases h1 : h % M < K
    · have h2 : ¬ h % M = K := by omega
      have h3 : h % M < K + 1 := by omega
      simp [h1, h2, h3]
    · by_cases h2 : h % M = K
      · have h3 : h % M < K + 1 := by omega
        simp [h1, h2, h3]
      · have h3 : ¬ h % M < K + 1 := by omega
        simp [h1, h2, h3]

/-- Every fingerprint occurs in the partition files as often as in the corpus. -/
theorem count_ingest_files (cfg : Config) (corpus : List Read) (hN : 1 ≤ cfg.numHashPasses)
    (h : Nat) :
    (ingest cfg corpus).tmpHashesFiles.flatten.count h = (allHashes corpus).count h := by
  rw [ingest_files, count_partitions, if_pos (Nat.mod_lt _ hN)]

theorem disjointFiles_ingest (cfg : Config) (corpus : List Read) :
    DisjointFiles (ingest cfg corpus).tmpHashesFiles := by
  rw [ingest_files]; exact disjointFiles_partition _ _

theorem mem_indexedFingerprints (corpus : List Read) (h : Nat) :
    h ∈ indexedFingerprints corpus ↔ 2 ≤ (allHashes corpus).count h := by
  simp only [indexedFingerprints, List.mem_filter, List.mem_dedup, decide_eq_true_eq]
  constructor
  · exact fun hh => hh.2
  · intro hh
    exact ⟨List.count_pos_iff.mp (by omega), hh⟩

theorem length_secondSightings_ingest (cfg : Config) (corpus : List Read)
    (hN : 1 ≤ cfg.numHashPasses) :
    (secondSightings (ingest cfg corpus).tmpHashesFiles.flatten).length
      = (indexedFingerprints corpus).length := by
  apply List.Perm.length_eq
  have hnd : (indexedFingerprints corpus).Nodup :=
    List.Nodup.filter _ (List.nodup_dedup _)
  rw [List.perm_ext_iff_of_nodup (nodup_secondSightings _) hnd]
  intro a
  rw [mem_secondSightings, mem_indexedFingerprints, count_ingest_files cfg corpus hN]

theorem consumed_append (files : List (List Nat)) (i j : Nat) :
    ∃ rest, files.flatten = consumed files i j ++ rest := by
  unfold consumed
  by_cases hi : i < files.length
  · refine ⟨(files[i]).drop j ++ (files.drop (i + 1)).flatten, ?_⟩
    have hsplit : files = files.take i ++ files[i] :: files.drop (i + 1) := by
      rw [List.getElem_cons_drop, List.take_append_drop]
    rw [List.getD_eq_getElem _ _ hi]
    conv_lhs => rw [hsplit]
    rw [List.flatten_append, List.flatten_cons, List.append_assoc, ← List.append_assoc (List.take j _),
      List.take_append_drop]
  · refine ⟨[], ?_⟩
    rw [List.getD_eq_default _ _ (by omega), List.take_of_length_le (by omega)]
    simp

theorem length_secondSightings_consumed (files : List (List Nat)) (i j : Nat) :
    (secondSightings (consumed files i j)).length ≤ (secondSightings files.flatten).length := by
  obtain ⟨rest, hr⟩ := consumed_append files i j
  rw [hr]
  exact length_secondSightings_le _ _

/-- The assertion `assert(hash % numHashPasses == i)` of the resolver loop holds for every
fingerprint of every partition file, so it is not modelled as a failure. -/
theorem partition_assert (cfg : Config) (corpus : List Read) (i : Nat)
    (hi : i < (ingest cfg corpus).tmpHashesFiles.length) :
    ∀ hash ∈ (ingest cfg corpus).tmpHashesFiles[i], hash % cfg.numHashPasses = i := by
  intro hash hmem
  have hfiles := ingest_files cfg corpus
  have hget : (ingest cfg corpus).tmpHashesFiles[i]?
      = ((List.range cfg.numHashPasses).map
          (partitionOf cfg.numHashPasses (allHashes corpus)))[i]? := by rw [hfiles]
  have hlt : i < cfg.numHashPasses := by
    have := congrArg List.length hfiles
    simp only [List.length_map, List.length_range] at this
    omega
  rw [List.getElem?_eq_getElem hi, List.getElem?_map, List.getElem?_range hlt] at hget
  simp only [Option.map_some', Option.some.injEq] at hget
  rw [hget] at hmem
  simpa [partitionOf] using (List.mem_filter.mp hmem).2

/-- There are exactly `numHashPasses` partition files. -/
theorem length_ingest_files (cfg : Config) (corpus : List Read) :
    (ingest cfg corpus).tmpHashesFiles.length = cfg.numHashPasses := by
  rw [ingest_files]
  simp

/-! ## Claims on the frequency resolver -/

theorem lookup_of_tablesInv (tab : List (Nat × Nat)) (cov done : List Nat)
    (inv : TablesInv tab cov done) (hb : tab.length ≤ 2 ^ 32) (k : Nat)
    (hk : k < (secondSightings done).length) :
    tab.lookup ((secondSightings done)[k]) = some k := by
  have hnd : (tab.map Prod.fst).Nodup := inv.keys ▸ nodup_secondSightings _
  have hmem : (secondSightings done)[k] ∈ tab.map Prod.fst := by
    rw [inv.keys]; exact List.getElem_mem _
  obtain ⟨idx, hidx⟩ := (lookup_isSome_iff_mem_keys _ _).mpr hmem
  obtain ⟨hi, hget⟩ := lookup_position tab _ idx inv.vals hb hidx
  have hkt : k < tab.length := by
    have := congrArg List.length inv.keys
    rw [List.length_map] at this
    omega
  have hkey : tab[k].1 = (secondSightings done)[k] := by
    have : (tab.map Prod.fst)[k]? = (secondSightings done)[k]? := by rw [inv.keys]
    rw [List.getElem?_map, List.getElem?_eq_getElem hkt, List.getElem?_eq_getElem hk] at this
    simpa using this
  by_cases hik : idx = k
  · rw [hidx, hik]
  · exfalso
    apply keys_getElem_ne tab hnd idx k hi hkt hik
    rw [hget, hkey]

theorem getElem_of_lookup (tab : List (Nat × Nat)) (cov done : List Nat)
    (inv : TablesInv tab cov done) (hb : tab.length ≤ 2 ^ 32) (h index : Nat)
    (hl : tab.lookup h = some index) :
    (secondSightings done)[index]? = some h := by
  obtain ⟨hi, hget⟩ := lookup_position tab h index inv.vals hb hl
  rw [← inv.keys, List.getElem?_map, List.getElem?_eq_getElem hi, hget]
  rfl

theorem length_tab_eq (tab : List (Nat × Nat)) (cov done : List Nat)
    (inv : TablesInv tab cov done) : tab.length = (secondSightings done).length := by
  rw [← inv.keys, List.length_map]

theorem vals_eq_range (tab : List (Nat × Nat)) (cov done : List Nat)
    (inv : TablesInv tab cov done) (hb : tab.length ≤ 2 ^ 32) :
    tab.map Prod.snd = List.range tab.length := by
  rw [inv.vals]
  conv_rhs => rw [← List.map_id (List.range tab.length)]
  apply List.map_congr_left
  intro j hj
  rw [List.mem_range] at hj
  exact Nat.mod_eq_of_lt (by omega)

theorem readHash_lookup (st : Pass) (x h index : Nat)
    (hl : st.hashToIndex.lookup h = some index) :
    (readHash st x).hashToIndex.lookup h = some index := by
  unfold readHash
  split
  · split
    · next hn =>
      simp only [List.lookup_append, hl, Option.or_some]
    · exact hl
  · exact hl

/-- The resolver tables of a corpus satisfy the invariant for the concatenated partition
files. -/
theorem resolved_inv (cfg : Config) (corpus : List Read) :
    Resolved (resolved cfg corpus).hashToIndex (resolved cfg corpus).indexCoverage
      (ingest cfg corpus).tmpHashesFiles.flatten :=
  resolve_resolved _ (disjointFiles_ingest cfg corpus)

theorem lookup_iff_count (cfg : Config) (corpus : List Read) (hN : 1 ≤ cfg.numHashPasses)
    (hash : Nat) :
    (∃ index, (resolved cfg corpus).hashToIndex.lookup hash = some index)
      ↔ 2 ≤ (allHashes corpus).count hash := by
  rw [lookup_isSome_iff_mem_keys, (resolved_inv cfg corpus).1.keys, mem_secondSightings,
    count_ingest_files cfg corpus hN]

theorem coverage_lookup (cfg : Config) (corpus : List Read) (hN : 1 ≤ cfg.numHashPasses)
    (hfit : (indexedFingerprints corpus).length ≤ 2 ^ 32)
    (hlen : (allHashes corpus).length < 2 ^ 64) (hash index : Nat)
    (hl : (resolved cfg corpus).hashToIndex.lookup hash = some index) :
    (resolved cfg corpus).indexCoverage[index]? = some ((allHashes corpus).count hash) := by
  obtain ⟨inv, hcov⟩ := resolved_inv cfg corpus
  have hb := length_secondSightings_ingest cfg corpus hN
  have hcov := hcov (by omega)
  have hbt : (resolved cfg corpus).hashToIndex.length ≤ 2 ^ 32 := by
    rw [length_tab_eq _ _ _ inv]; omega
  obtain ⟨hi, hget⟩ := lookup_position _ hash index inv.vals hbt hl
  unfold CovInv at hcov
  rw [hcov, List.getElem?_map, List.getElem?_eq_getElem hi, hget]
  simp only [Option.map_some', Option.some.injEq]
  rw [count_ingest_files cfg corpus hN]
  exact Nat.mod_eq_of_lt (lt_of_le_of_lt (List.count_le_length _ _) hlen)

theorem coverageOf_eq (cfg : Config) (corpus : List Read) (hN : 1 ≤ cfg.numHashPasses)
    (hfit : (indexedFingerprints corpus).length ≤ 2 ^ 32)
    (hlen : (allHashes corpus).length < 2 ^ 64) (hash : Nat) :
    coverageOf (resolved cfg corpus) hash
      = if 2 ≤ (allHashes corpus).count hash then some ((allHashes corpus).count hash)
        else none := by
  unfold coverageOf
  cases hl : (resolved cfg corpus).hashToIndex.lookup hash with
  | none =>
    have h1 := lookup_iff_count cfg corpus hN hash
    rw [hl] at h1
    have h2 : ¬ 2 ≤ (allHashes corpus).count hash := fun hc => by
      obtain ⟨i, hi⟩ := h1.mpr hc
      cases hi
    simp [h2]
  | some index =>
    have h1 := (lookup_iff_count cfg corpus hN hash).mp ⟨index, hl⟩
    simp only [Option.some_bind, if_pos h1]
    exact coverage_lookup cfg corpus hN hfit hlen hash index hl

/-! ## Every step of the resolver -/

/-- Consuming one more fingerprint of the current partition file is one `readHash` step. -/
theorem resolverAfter_succ (files : List (List Nat)) (i j : Nat) (hi : i < files.length)
    (hj : j < files[i].length) :
    resolverAfter files i (j + 1) = readHash (resolverAfter files i j) files[i][j] := by
  unfold resolverAfter
  rw [List.getD_eq_getElem _ _ hi, List.take_succ, List.foldl_append,
    List.getElem?_eq_getElem hj]
  rfl

/-- Finishing partition file `i` gives the tables the next pass starts from. -/
theorem resolverAfter_file_end (files : List (List Nat)) (i : Nat) (hi : i < files.length) :
    (resolverAfter files i files[i].length).hashToIndex
        = (resolve (files.take (i + 1))).hashToIndex ∧
      (resolverAfter files i files[i].length).indexCoverage
        = (resolve (files.take (i + 1))).indexCoverage := by
  unfold resolverAfter
  rw [List.getD_eq_getElem _ _ hi, List.take_length]
  have : files.take (i + 1) = files.take i ++ [files[i]] := by
    rw [List.take_succ, List.getElem?_eq_getElem hi]; rfl
  simp only [resolve, this, List.foldl_append, List.foldl_cons, List.foldl_nil, hashPass,
    and_self]

/-- After the last partition file the state holds the final tables. -/
theorem resolverAfter_final (files : List (List Nat)) :
    (resolverAfter files files.length 0).hashToIndex = (resolve files).hashToIndex ∧
      (resolverAfter files files.length 0).indexCoverage = (resolve files).indexCoverage := by
  simp [resolverAfter, Tables.start]

theorem count_consumed_le (files : List (List Nat)) (i j h : Nat) :
    (consumed files i j).count h ≤ files.flatten.count h := by
  obtain ⟨rest, hr⟩ := consumed_append files i j
  rw [hr, List.count_append]
  omega

theorem secondSightings_consumed_getElem (files : List (List Nat)) (i j k h : Nat)
    (hk : (secondSightings (consumed files i j))[k]? = some h) :
    (secondSightings files.flatten)[k]? = some h := by
  obtain ⟨rest, hr⟩ := consumed_append files i j
  rw [hr, secondSightings_append]
  have hlt : k < (secondSightings (consumed files i j)).length := by
    by_contra hc
    rw [List.getElem?_eq_none (by omega)] at hk
    cases hk
  rw [List.getElem?_append_left hlt]
  exact hk

/-! ## Compaction pass -/

theorem mem_of_lookup (tab : List (Nat × Nat)) (hash index : Nat)
    (hl : tab.lookup hash = some index) : (hash, index) ∈ tab := by
  obtain ⟨l₁, l₂, htab, -⟩ := List.lookup_eq_some_iff.mp hl
  rw [htab]
  simp

theorem survivingTriple_none (tab : List (Nat × Nat)) (cov : List Nat) (maxCoverage : Nat)
    (t : HashTriple) (hl : tab.lookup t.1 = none) :
    survivingTriple tab cov maxCoverage t = none := by
  unfold survivingTriple
  rw [hl]

theorem survivingTriple_above (tab : List (Nat × Nat)) (cov : List Nat) (maxCoverage : Nat)
    (t : HashTriple) (index : Nat) (hl : tab.lookup t.1 = some index)
    (hc : cov.getD index 0 > maxCoverage) :
    survivingTriple tab cov maxCoverage t = none := by
  unfold survivingTriple
  rw [hl]
  exact if_pos hc

theorem survivingTriple_kept (tab : List (Nat × Nat)) (cov : List Nat) (maxCoverage : Nat)
    (t : HashTriple) (index : Nat) (hl : tab.lookup t.1 = some index)
    (hc : ¬ cov.getD index 0 > maxCoverage) :
    survivingTriple tab cov maxCoverage t = some (index, t.2.1, t.2.2) := by
  unfold survivingTriple
  rw [hl]
  exact if_neg hc

theorem survivingTriples_cons_none (tab : List (Nat × Nat)) (cov : List Nat) (maxCoverage : Nat)
    (t : HashTriple) (ts : List HashTriple) (h : survivingTriple tab cov maxCoverage t = none) :
    survivingTriples tab cov maxCoverage (t :: ts) = survivingTriples tab cov maxCoverage ts := by
  unfold survivingTriples
  rw [List.filterMap_cons, h]

theorem survivingTriples_cons_some (tab : List (Nat × Nat)) (cov : List Nat) (maxCoverage : Nat)
    (t : HashTriple) (ts : List HashTriple) (b : IndexTriple)
    (h : survivingTriple tab cov maxCoverage t = some b) :
    survivingTriples tab cov maxCoverage (t :: ts)
      = b :: survivingTriples tab cov maxCoverage ts := by
  unfold survivingTriples
  rw [List.filterMap_cons, h]

theorem readTriples_fields (tab : List (Nat × Nat)) (cov : List Nat) (maxCoverage : Nat)
    (hin : InBounds tab cov) (triples : List HashTriple) :
    ∀ (acc : List IndexTriple) (rest : List Nat),
      readTriples tab cov maxCoverage triples.length (triples.flatMap tripleFields ++ rest) acc
        = some (acc ++ survivingTriples tab cov maxCoverage triples, rest) := by
  induction triples with
  | nil => intro acc rest; simp [readTriples, survivingTriples]
  | cons t ts ih =>
    intro acc rest
    obtain ⟨hash, startPos, endPos⟩ := t
    have hstream : ((hash, startPos, endPos) :: ts).flatMap tripleFields ++ rest
        = hash :: startPos :: endPos :: (ts.flatMap tripleFields ++ rest) := by
      simp [tripleFields]
    rw [List.length_cons, hstream, readTriples]
    cases hl : tab.lookup hash with
    | none =>
      simp only
      rw [survivingTriples_cons_none _ _ _ _ _ (survivingTriple_none _ _ _ _ hl)]
      exact ih acc rest
    | some index =>
      have hlt : index < cov.length := hin _ (mem_of_lookup tab hash index hl)
      have hget : cov.getD index 0 = cov[index] := List.getD_eq_getElem _ _ hlt
      simp only [List.getElem?_eq_getElem hlt]
      by_cases hc : cov[index] > maxCoverage
      · rw [if_pos hc, survivingTriples_cons_none _ _ _ _ _
          (survivingTriple_above _ _ _ _ index hl (by rw [hget]; exact hc))]
        exact ih acc rest
      · rw [if_neg hc, survivingTriples_cons_some _ _ _ _ _ _
          (survivingTriple_kept _ _ _ _ index hl (by rw [hget]; exact hc)), ih]
        simp

theorem redoPositions_groups (tab : List (Nat × Nat)) (cov : List Nat) (maxCoverage : Nat)
    (hin : InBounds tab cov) (groups : List (Nat × List HashTriple)) :
    ∀ (fuel : Nat) (out : Compaction), groups.length ≤ fuel →
      (redoPositions tab cov maxCoverage fuel (groups.flatMap groupFields) out).map
          (fun c => c.indexFile)
        = some (out.indexFile ++ groups.filterMap (expectedRecord tab cov maxCoverage)) := by
  induction groups with
  | nil => intro fuel out _; simp [redoPositions]
  | cons g gs ih =>
    intro fuel out hf
    obtain ⟨read, triples⟩ := g
    cases fuel with
    | zero => simp at hf
    | succ fuel =>
      have hf2 : gs.length ≤ fuel := by simpa using hf
      have hstream : ((read, triples) :: gs).flatMap groupFields
          = read :: triples.length :: (triples.flatMap tripleFields ++ gs.flatMap groupFields) := by
        simp [groupFields]
      rw [hstream, redoPositions, readTriples_fields tab cov maxCoverage hin]
      simp only [List.nil_append]
      by_cases hs : (survivingTriples tab cov maxCoverage triples).length = 0
      · rw [if_pos hs, ih fuel out hf2]
        simp [expectedRecord, hs]
      · rw [if_neg hs, ih fuel _ hf2]
        simp [expectedRecord, hs]

theorem length_le_length_flatMap_groupFields (groups : List (Nat × List HashTriple)) :
    groups.length ≤ (groups.flatMap groupFields).length := by
  induction groups with
  | nil => simp
  | cons g gs ih =>
    simp only [List.flatMap_cons, List.length_append, List.length_cons, groupFields]
    omega

theorem survivingTriple_snd (tab : List (Nat × Nat)) (cov : List Nat) (maxCoverage : Nat)
    (t : HashTriple) (b : IndexTriple) (h : survivingTriple tab cov maxCoverage t = some b) :
    b.2 = t.2 := by
  unfold survivingTriple at h
  split at h
  · cases h
  · split at h
    · cases h
    · cases h; rfl

theorem offsets_sublist (tab : List (Nat × Nat)) (cov : List Nat) (maxCoverage : Nat)
    (triples : List HashTriple) :
    ((survivingTriples tab cov maxCoverage triples).map Prod.snd).Sublist
      (triples.map Prod.snd) := by
  induction triples with
  | nil => simp [survivingTriples]
  | cons t ts ih =>
    cases hs : survivingTriple tab cov maxCoverage t with
    | none =>
      rw [survivingTriples_cons_none _ _ _ _ _ hs]
      exact List.Sublist.cons _ ih
    | some b =>
      rw [survivingTriples_cons_some _ _ _ _ _ _ hs, List.map_cons, List.map_cons,
        survivingTriple_snd _ _ _ _ _ hs]
      exact List.Sublist.cons₂ _ ih

/-! ## The temporary positions file of a corpus -/

theorem foldl_writeTriple_frame (N : Nat) (hs : List HashTriple) :
    ∀ st : Ingest,
      (hs.foldl (writeTriple N) st).tmpPositionsFile
          = st.tmpPositionsFile ++ hs.flatMap tripleFields ∧
        (hs.foldl (writeTriple N) st).names = st.names ∧
        (hs.foldl (writeTriple N) st).readLengths = st.readLengths := by
  induction hs with
  | nil => intro st; simp
  | cons t ts ih =>
    intro st
    obtain ⟨h1, h2, h3⟩ := ih (writeTriple N st t)
    rw [List.foldl_cons, h1, h2, h3]
    simp [writeTriple, tripleFields]

theorem iterateRead_names (cfg : Config) (st : Ingest) (r : Read) :
    (iterateRead cfg st r).names = st.names ++ [r.name] := by
  unfold iterateRead indexRead
  split
  · rfl
  · rw [(foldl_writeTriple_frame _ _ _).2.1]

theorem iterateRead_positions (cfg : Config) (st : Ingest) (r : Read)
    (hlen : r.hashes.length < 2 ^ 32) :
    (iterateRead cfg st r).tmpPositionsFile
      = st.tmpPositionsFile ++ (groupsFrom st.names.length [r]).flatMap groupFields := by
  unfold iterateRead indexRead
  split
  · next h0 =>
    have h1 : r.hashes = [] := List.length_eq_zero.mp h0
    simp [groupsFrom, h1]
  · next h0 =>
    have h1 : ¬ r.hashes = [] := fun h => h0 (List.length_eq_zero.mpr h)
    have h2 : r.hashes.length % 4294967296 = r.hashes.length := Nat.mod_eq_of_lt hlen
    rw [(foldl_writeTriple_frame _ _ _).1]
    simp [groupsFrom, h1, groupFields, h2]

theorem groupsFrom_cons (start : Nat) (r : Read) (rs : List Read) :
    groupsFrom start (r :: rs) = groupsFrom start [r] ++ groupsFrom (start + 1) rs := by
  unfold groupsFrom
  by_cases h1 : r.hashes = [] <;> simp [h1]

theorem foldl_iterateRead_positions (cfg : Config) (corpus : List Read)
    (hlen : ∀ r ∈ corpus, r.hashes.length < 2 ^ 32) :
    ∀ st : Ingest,
      (corpus.foldl (iterateRead cfg) st).tmpPositionsFile
        = st.tmpPositionsFile ++ (groupsFrom st.names.length corpus).flatMap groupFields := by
  induction corpus with
  | nil => intro st; simp [groupsFrom]
  | cons r rs ih =>
    intro st
    rw [List.foldl_cons, ih (fun x hx => hlen x (List.mem_cons_of_mem _ hx)),
      iterateRead_positions cfg st r (hlen r (List.mem_cons_self _ _)), iterateRead_names,
      groupsFrom_cons st.names.length r rs]
    simp [List.append_assoc]

/-- The temporary positions file after ingestion. -/
theorem ingest_positions (cfg : Config) (corpus : List Read)
    (hlen : ∀ r ∈ corpus, r.hashes.length < 2 ^ 32) :
    (ingest cfg corpus).tmpPositionsFile = (groupsFrom 0 corpus).flatMap groupFields := by
  have := foldl_iterateRead_positions cfg corpus hlen (Ingest.init cfg)
  simpa [ingest, Ingest.init] using this

/-! ## The index file of a corpus -/

theorem inBounds_of_tablesInv (tab : List (Nat × Nat)) (cov done : List Nat)
    (inv : TablesInv tab cov done) : InBounds tab cov := by
  intro e he
  have hmem : e.2 ∈ tab.map Prod.snd := List.mem_map_of_mem Prod.snd he
  rw [inv.vals, List.mem_map] at hmem
  obtain ⟨j, hj, hje⟩ := hmem
  rw [List.mem_range] at hj
  rw [inv.covLen, ← hje]
  exact lt_of_le_of_lt (Nat.mod_le _ _) hj

theorem inBounds_resolved (cfg : Config) (corpus : List Read) :
    InBounds (resolved cfg corpus).hashToIndex (resolved cfg corpus).indexCoverage :=
  inBounds_of_tablesInv _ _ _ (resolved_inv cfg corpus).1

theorem compactionPass_groups (tables : Tables) (maxCoverage : Nat)
    (hin : InBounds tables.hashToIndex tables.indexCoverage)
    (groups : List (Nat × List HashTriple)) :
    ∃ c, compactionPass tables maxCoverage (groups.flatMap groupFields) = some c ∧
      c.indexFile
        = groups.filterMap (expectedRecord tables.hashToIndex tables.indexCoverage maxCoverage) := by
  have h := redoPositions_groups tables.hashToIndex tables.indexCoverage maxCoverage hin groups
    (groups.flatMap groupFields).length { indexFile := [], numIndexedHashes := 0 }
    (length_le_length_flatMap_groupFields groups)
  unfold compactionPass
  cases hc : redoPositions tables.hashToIndex tables.indexCoverage maxCoverage
      (groups.flatMap groupFields).length (groups.flatMap groupFields)
      { indexFile := [], numIndexedHashes := 0 } with
  | none => rw [hc] at h; cases h
  | some c =>
    rw [hc] at h
    refine ⟨c, rfl, ?_⟩
    simpa using h

theorem survivingTriples_nil (tab : List (Nat × Nat)) (cov : List Nat) (maxCoverage : Nat) :
    survivingTriples tab cov maxCoverage [] = [] := rfl

theorem length_survivingTriples_le (tab : List (Nat × Nat)) (cov : List Nat) (maxCoverage : Nat)
    (triples : List HashTriple) :
    (survivingTriples tab cov maxCoverage triples).length ≤ triples.length :=
  List.length_filterMap_le _ _

theorem filter_read_groupsFrom (tab : List (Nat × Nat)) (cov : List Nat) (maxCoverage : Nat)
    (corpus : List Read) :
    ∀ (start i : Nat), start + corpus.length ≤ 2 ^ 32 →
      ((groupsFrom start corpus).filterMap (expectedRecord tab cov maxCoverage)).filter
          (fun rec => rec.read = i)
        = if start ≤ i then
            ((corpus[i - start]?).bind
              (fun r => expectedRecord tab cov maxCoverage (i, r.hashes))).toList
          else [] := by
  induction corpus with
  | nil => intro start i _; simp [groupsFrom]
  | cons r rs ih =>
    intro start i hb
    rw [groupsFrom_cons, List.filterMap_append, List.filter_append,
      ih (start + 1) i (by simp only [List.length_cons] at hb; omega)]
    have hstart : start % 2 ^ 32 = start := Nat.mod_eq_of_lt (by
      simp only [List.length_cons] at hb; omega)
    have hone : (groupsFrom start [r]).filterMap (expectedRecord tab cov maxCoverage)
        = (expectedRecord tab cov maxCoverage (start, r.hashes)).toList := by
      by_cases h1 : r.hashes = []
      · simp [groupsFrom, h1, expectedRecord, survivingTriples_nil]
      · have h2 : ¬ r.hashes.length = 0 := fun h => h1 (List.length_eq_zero.mp h)
        simp only [groupsFrom, List.enumFrom_cons, List.enumFrom_nil, List.filterMap_cons,
          if_neg h2, hstart, List.filterMap_nil]
        cases expectedRecord tab cov maxCoverage (start, r.hashes) <;> rfl
    rw [hone]
    have hread : ∀ rec, expectedRecord tab cov maxCoverage (start, r.hashes) = some rec →
        rec.read = start := by
      intro rec hrec
      unfold expectedRecord at hrec
      simp only at hrec
      split at hrec
      · cases hrec
      · cases hrec; rfl
    by_cases hi : start = i
    · subst hi
      have h3 : ¬ start + 1 ≤ start := by omega
      simp only [if_neg h3, List.append_nil, le_refl, if_true, Nat.sub_self,
        List.getElem?_cons_zero, Option.some_bind]
      cases he : expectedRecord tab cov maxCoverage (start, r.hashes) with
      | none => rfl
      | some rec => simp [Option.toList, hread rec he]
    · have hfirst : (expectedRecord tab cov maxCoverage (start, r.hashes)).toList.filter
          (fun rec => rec.read = i) = [] := by
        cases he : expectedRecord tab cov maxCoverage (start, r.hashes) with
        | none => rfl
        | some rec => simp [Option.toList, hread rec he, hi]
      rw [hfirst, List.nil_append]
      by_cases hle : start ≤ i
      · have h4 : start + 1 ≤ i := by omega
        have h5 : i - start = (i - (start + 1)) + 1 := by omega
        rw [if_pos h4, if_pos hle, h5, List.getElem?_cons_succ]
      · have h4 : ¬ start + 1 ≤ i := by omega
        rw [if_neg h4, if_neg hle]

/-- The program returns, and its index file holds the expected records of the groups. -/
theorem main_indexFile (cfg : Config) (corpus : List Read)
    (hlen : ∀ r ∈ corpus, r.hashes.length < 2 ^ 32) :
    ∃ out, main cfg corpus = some out ∧
      out.filter = coverageFilter cfg.maxCoverage (resolved cfg corpus) ∧
      out.metadata = indexMetadata cfg (ingest cfg corpus) (resolved cfg corpus) ∧
      out.compaction.indexFile
        = (groupsFrom 0 corpus).filterMap
            (expectedRecord (resolved cfg corpus).hashToIndex (resolved cfg corpus).indexCoverage
              cfg.maxCoverage) := by
  obtain ⟨c, hc, hfile⟩ := compactionPass_groups (resolved cfg corpus) cfg.maxCoverage
    (inBounds_resolved cfg corpus) (groupsFrom 0 corpus)
  rw [← ingest_positions cfg corpus hlen] at hc
  refine ⟨{ filter := coverageFilter cfg.maxCoverage (resolved cfg corpus),
            metadata := indexMetadata cfg (ingest cfg corpus) (resolved cfg corpus),
            compaction := c }, ?_, rfl, rfl, hfile⟩
  unfold main
  simp only [resolved] at hc ⊢
  rw [hc]

/-! ## Coverage filter -/

theorem foldl_filterStep (maxCoverage : Nat) (l : List Nat) :
    ∀ st : Filter,
      (l.foldl (filterStep maxCoverage) st).hashToIndex = st.hashToIndex ∧
      (l.foldl (filterStep maxCoverage) st).indexCoverage = st.indexCoverage ∧
      (l.foldl (filterStep maxCoverage) st).countAboveThreshold
        = st.countAboveThreshold + l.countP (fun c => decide (c > maxCoverage)) ∧
      (l.foldl (filterStep maxCoverage) st).maxHashCoverage
        = max st.maxHashCoverage (l.foldr max 0) ∧
      (l.foldl (filterStep maxCoverage) st).maxIndexedCoverage
        = max st.maxIndexedCoverage
            ((l.filter (fun c => decide (c ≤ maxCoverage))).foldr max 0) := by
  induction l with
  | nil => intro st; simp
  | cons c l ih =>
    intro st
    obtain ⟨h1, h2, h3, h4, h5⟩ := ih (filterStep maxCoverage st c)
    rw [List.foldl_cons, h1, h2, h3, h4, h5]
    by_cases hc : c > maxCoverage
    · have hle : ¬ c ≤ maxCoverage := by omega
      simp [filterStep, hc, hle, List.countP_cons, max_assoc]
      omega
    · have hle : c ≤ maxCoverage := by omega
      simp [filterStep, hc, hle, List.countP_cons, max_assoc]

theorem le_foldr_max (l : List Nat) : ∀ c ∈ l, c ≤ l.foldr max 0 := by
  induction l with
  | nil => intro c hc; cases hc
  | cons a l ih =>
    intro c hc
    rw [List.foldr_cons]
    rcases List.mem_cons.mp hc with rfl | hc
    · exact le_max_left _ _
    · exact le_trans (ih c hc) (le_max_right _ _)

theorem foldr_max_mem (l : List Nat) (hl : l ≠ []) : l.foldr max 0 ∈ l := by
  induction l with
  | nil => exact absurd rfl hl
  | cons a l ih =>
    rw [List.foldr_cons]
    by_cases hl2 : l = []
    · subst hl2; simp
    · rcases max_choice a (l.foldr max 0) with h | h
      · rw [h]; exact List.mem_cons_self _ _
      · rw [h]; exact List.mem_cons_of_mem _ (ih hl2)

theorem coverageFilter_fields (maxCoverage : Nat) (tables : Tables) :
    (coverageFilter maxCoverage tables).hashToIndex = tables.hashToIndex ∧
      (coverageFilter maxCoverage tables).indexCoverage = tables.indexCoverage ∧
      (coverageFilter maxCoverage tables).countAboveThreshold
        = tables.indexCoverage.countP (fun c => decide (c > maxCoverage)) ∧
      (coverageFilter maxCoverage tables).maxHashCoverage = tables.indexCoverage.foldr max 0 ∧
      (coverageFilter maxCoverage tables).maxIndexedCoverage
        = (tables.indexCoverage.filter (fun c => decide (c ≤ maxCoverage))).foldr max 0 := by
  obtain ⟨h1, h2, h3, h4, h5⟩ := foldl_filterStep maxCoverage tables.indexCoverage
    { hashToIndex := tables.hashToIndex, indexCoverage := tables.indexCoverage,
      countAboveThreshold := 0, maxHashCoverage := 0, maxIndexedCoverage := 0 }
  unfold coverageFilter
  rw [h1, h2, h3, h4, h5]
  simp

theorem countP_le_add_countP_gt (maxCoverage : Nat) (l : List Nat) :
    l.countP (fun c => decide (c ≤ maxCoverage)) + l.countP (fun c => decide (c > maxCoverage))
      = l.length := by
  induction l with
  | nil => rfl
  | cons c l ih =>
    rw [List.countP_cons, List.countP_cons, List.length_cons]
    by_cases hc : c > maxCoverage
    · have hle : ¬ c ≤ maxCoverage := by omega
      rw [if_neg (by simpa using hle), if_pos (by simpa using hc)]
      omega
    · have hle : c ≤ maxCoverage := by omega
      rw [if_pos (by simpa using hle), if_neg (by simpa using hc)]
      omega

theorem kept_count (maxCoverage : Nat) (tables : Tables) :
    tables.indexCoverage.length - (coverageFilter maxCoverage tables).countAboveThreshold
      = tables.indexCoverage.countP (fun c => decide (c ≤ maxCoverage)) := by
  rw [(coverageFilter_fields maxCoverage tables).2.2.1]
  have h := countP_le_add_countP_gt maxCoverage tables.indexCoverage
  omega

/-! ## Coverage entries are `size_t` values -/

theorem readHash_cov_lt (st : Pass) (h : Nat) (hb : ∀ c ∈ st.indexCoverage, c < 2 ^ 64) :
    ∀ c ∈ (readHash st h).indexCoverage, c < 2 ^ 64 := by
  unfold readHash
  split
  · split
    · intro c hc
      simp only [List.mem_append, List.mem_singleton] at hc
      rcases hc with hc | hc
      · exact hb c hc
      · rw [hc]; decide
    · intro c hc
      rcases List.mem_or_eq_of_mem_set hc with hc | hc
      · exact hb c hc
      · rw [hc]; exact Nat.mod_lt _ (by decide)
  · exact hb

theorem foldl_readHash_cov_lt (file : List Nat) :
    ∀ st : Pass, (∀ c ∈ st.indexCoverage, c < 2 ^ 64) →
      ∀ c ∈ (file.foldl readHash st).indexCoverage, c < 2 ^ 64 := by
  induction file with
  | nil => intro st hb; exact hb
  | cons h file ih => intro st hb; exact ih _ (readHash_cov_lt st h hb)

theorem foldl_hashPass_cov_lt (files : List (List Nat)) :
    ∀ t : Tables, (∀ c ∈ t.indexCoverage, c < 2 ^ 64) →
      ∀ c ∈ (files.foldl hashPass t).indexCoverage, c < 2 ^ 64 := by
  induction files with
  | nil => intro t hb; exact hb
  | cons f files ih =>
    intro t hb
    exact ih _ (foldl_readHash_cov_lt f t.start hb)

theorem resolved_cov_lt (cfg : Config) (corpus : List Read) :
    ∀ c ∈ (resolved cfg corpus).indexCoverage, c < 2 ^ 64 :=
  foldl_hashPass_cov_lt _ Tables.empty (by intro c hc; cases hc)

theorem survivingTriples_mono (tab : List (Nat × Nat)) (cov : List Nat) (t1 t2 : Nat)
    (h12 : t1 ≤ t2) (triples : List HashTriple) :
    (survivingTriples tab cov t1 triples).Sublist (survivingTriples tab cov t2 triples) := by
  induction triples with
  | nil => simp [survivingTriples]
  | cons t ts ih =>
    cases hl : tab.lookup t.1 with
    | none =>
      rw [survivingTriples_cons_none _ _ _ _ _ (survivingTriple_none _ _ _ _ hl),
        survivingTriples_cons_none _ _ _ _ _ (survivingTriple_none _ _ _ _ hl)]
      exact ih
    | some index =>
      by_cases h2 : cov.getD index 0 > t2
      · have h1 : cov.getD index 0 > t1 := by omega
        rw [survivingTriples_cons_none _ _ _ _ _ (survivingTriple_above _ _ _ _ index hl h1),
          survivingTriples_cons_none _ _ _ _ _ (survivingTriple_above _ _ _ _ index hl h2)]
        exact ih
      · rw [survivingTriples_cons_some _ _ _ _ _ _ (survivingTriple_kept _ _ _ _ index hl h2)]
        by_cases h1 : cov.getD index 0 > t1
        · rw [survivingTriples_cons_none _ _ _ _ _ (survivingTriple_above _ _ _ _ index hl h1)]
          exact List.Sublist.cons _ ih
        · rw [survivingTriples_cons_some _ _ _ _ _ _ (survivingTriple_kept _ _ _ _ index hl h1)]
          exact List.Sublist.cons₂ _ ih

theorem survivingTriples_sizeMax (tab : List (Nat × Nat)) (cov : List Nat)
    (hb : ∀ c ∈ cov, c < 2 ^ 64) (triples : List HashTriple) :
    survivingTriples tab cov sizeMax triples
      = triples.filterMap (fun t => (tab.lookup t.1).map (fun index => (index, t.2.1, t.2.2))) := by
  unfold survivingTriples
  apply List.filterMap_congr
  intro t _
  cases hl : tab.lookup t.1 with
  | none => rw [survivingTriple_none _ _ _ _ hl]; rfl
  | some index =>
    have hle : ¬ cov.getD index 0 > sizeMax := by
      unfold sizeMax
      by_cases hi : index < cov.length
      · rw [List.getD_eq_getElem _ _ hi]
        have := hb _ (List.getElem_mem hi)
        omega
      · rw [List.getD_eq_default _ _ (by omega)]
        omega
    rw [survivingTriple_kept _ _ _ _ index hl hle]
    rfl

theorem countP_gt_sizeMax (cov : List Nat) (hb : ∀ c ∈ cov, c < 2 ^ 64) :
    cov.countP (fun c => decide (c > sizeMax)) = 0 := by
  rw [List.countP_eq_zero]
  intro c hc
  have := hb c hc
  unfold sizeMax
  simp only [decide_eq_true_eq]
  omega

/-! ## Read lengths -/

theorem length_splitBy_loop (l : List Char) :
    ∀ (ag : Char) (g : List Char) (gs : List (List Char)) (acc : Nat),
      (List.splitBy.loop (fun a b => a == b) l ag g gs).length + acc
        = hpcLoop (ag :: l) acc + gs.length + 1 := by
  induction l with
  | nil => intro ag g gs acc; simp [List.splitBy.loop, hpcLoop]; omega
  | cons a l ih =>
    intro ag g gs acc
    rw [List.splitBy.loop, hpcLoop]
    by_cases h : a = ag
    · subst h
      simp only [beq_self_eq_true, ne_eq, not_true_eq_false, if_false]
      exact ih a (a :: g) gs acc
    · have hb : (ag == a) = false := by
        simp only [beq_eq_false_iff_ne, ne_eq]
        exact fun e => h e.symm
      simp only [hb, ne_eq, h, not_false_eq_true, if_true]
      have := ih a [] ((ag :: g).reverse :: gs) (acc + 1)
      simp only [List.length_cons] at this
      omega

theorem hpcLoop_eq_runs (sequence : List Char) (hs : sequence ≠ []) :
    hpcLoop sequence 1 = (maximalRuns sequence).length := by
  cases sequence with
  | nil => exact absurd rfl hs
  | cons a l =>
    have := length_splitBy_loop l a [] [] 1
    simp only [List.length_nil] at this
    unfold maximalRuns
    rw [List.splitBy]
    omega

theorem getElem?_setReadLength (readLengths : List Nat) (readName len : Nat) :
    (setReadLength readLengths readName len)[readName]? = some len := by
  unfold setReadLength
  rw [List.getElem?_set_self]
  rw [List.length_append, List.length_replicate]
  omega

theorem indexRead_readLengths (cfg : Config) (st : Ingest) (readName : Nat) (r : Read)
    (hh : r.hashes ≠ []) :
    (indexRead cfg st readName r).readLengths
      = setReadLength st.readLengths readName (readLength cfg.hpc r.sequence) := by
  unfold indexRead
  have h0 : ¬ r.hashes.length = 0 := fun h => hh (List.length_eq_zero.mp h)
  rw [if_neg h0, (foldl_writeTriple_frame _ _ _).2.2]

/-! ## The claims -/

/-- C1 (distinctness). After ingestion with `numHashPasses >= 1` partitions and the resolver
loop over all partition files, a fingerprint has an entry in `hashToIndex` if and only if it
occurs at least twice among all triples of all reads; a fingerprint that occurs exactly once
has no entry. -/
theorem distinctness (cfg : Config) (corpus : List Read) (hN : 1 ≤ cfg.numHashPasses)
    (hash : Nat) :
    ((∃ index, (resolved cfg corpus).hashToIndex.lookup hash = some index)
        ↔ 2 ≤ (allHashes corpus).count hash) ∧
      ((allHashes corpus).count hash = 1 →
        (resolved cfg corpus).hashToIndex.lookup hash = none) := by
  have key := lookup_iff_count cfg corpus hN hash
  refine ⟨key, ?_⟩
  intro h1
  cases hl : (resolved cfg corpus).hashToIndex.lookup hash with
  | none => rfl
  | some index =>
    have := key.mp ⟨index, hl⟩
    omega

/-- Witness of C1: fingerprint 7 of the sample corpus. -/
theorem distinctness_witness :
    1 ≤ sampleConfig.numHashPasses ∧
    (((∃ index, (resolved sampleConfig sampleCorpus).hashToIndex.lookup 7 = some index)
        ↔ 2 ≤ (allHashes sampleCorpus).count 7) ∧
      ((allHashes sampleCorpus).count 7 = 1 →
        (resolved sampleConfig sampleCorpus).hashToIndex.lookup 7 = none)) :=
  ⟨by decide, distinctness sampleConfig sampleCorpus (by decide) 7⟩

/-- C2 (coverage exactness). With `numHashPasses >= 1`, at most `2 ^ 32` indexed
fingerprints and fewer than `2 ^ 64` triples (so that no machine counter wraps), the entry
`indexCoverage[hashToIndex[h]]` of every indexed fingerprint `h` is the number of occurrences
of `h` among all triples of all reads; hence the fingerprint to coverage mapping is the same
for any two partition counts. -/
theorem coverage_exactness (cfg cfg2 : Config) (corpus : List Read)
    (hN : 1 ≤ cfg.numHashPasses) (hN2 : 1 ≤ cfg2.numHashPasses)
    (hfit : (indexedFingerprints corpus).length ≤ 2 ^ 32)
    (hlen : (allHashes corpus).length < 2 ^ 64) :
    (∀ hash index, (resolved cfg corpus).hashToIndex.lookup hash = some index →
        (resolved cfg corpus).indexCoverage[index]? = some ((allHashes corpus).count hash)) ∧
      (∀ hash, coverageOf (resolved cfg corpus) hash = coverageOf (resolved cfg2 corpus) hash) := by
  refine ⟨fun hash index hl => coverage_lookup cfg corpus hN hfit hlen hash index hl, ?_⟩
  intro hash
  rw [coverageOf_eq cfg corpus hN hfit hlen, coverageOf_eq cfg2 corpus hN2 hfit hlen]

/-- Witness of C2: two and three partition files on the sample corpus. -/
theorem coverage_exactness_witness :
    (1 ≤ sampleConfig.numHashPasses ∧ 1 ≤ 3 ∧
      (indexedFingerprints sampleCorpus).length ≤ 2 ^ 32 ∧
      (allHashes sampleCorpus).length < 2 ^ 64) ∧
    ((∀ hash index, (resolved sampleConfig sampleCorpus).hashToIndex.lookup hash = some index →
        (resolved sampleConfig sampleCorpus).indexCoverage[index]?
          = some ((allHashes sampleCorpus).count hash)) ∧
      (∀ hash, coverageOf (resolved sampleConfig sampleCorpus) hash
        = coverageOf (resolved { sampleConfig with numHashPasses := 3 } sampleCorpus) hash)) :=
  ⟨by decide,
    coverage_exactness sampleConfig { sampleConfig with numHashPasses := 3 } sampleCorpus
      (by decide) (by decide) (by decide) (by decide)⟩

/-- C3 (compaction and order preservation). For every index table and coverage table whose
stored indices are positions of the coverage table, every threshold and every temporary
positions file made of read groups: the triple loop run on the group of a read collects
exactly the surviving triples of that read (the raw triples without those whose fingerprint
has no compact index or whose index has coverage above the threshold, the fingerprint
replaced by its compact index), the pass returns and writes for each group, in file order,
the record of its surviving triples (no record when none survives), and the offsets of the
surviving triples are a sub-list of the offsets of the raw triples, so order and offsets are
kept. -/
theorem compaction_order (tables : Tables) (maxCoverage : Nat)
    (hin : InBounds tables.hashToIndex tables.indexCoverage)
    (groups : List (Nat × List HashTriple)) :
    (∀ g ∈ groups, ∀ rest,
        readTriples tables.hashToIndex tables.indexCoverage maxCoverage g.2.length
            (g.2.flatMap tripleFields ++ rest) []
          = some (survivingTriples tables.hashToIndex tables.indexCoverage maxCoverage g.2, rest)) ∧
      (∃ c, compactionPass tables maxCoverage (groups.flatMap groupFields) = some c ∧
        c.indexFile = groups.filterMap
          (expectedRecord tables.hashToIndex tables.indexCoverage maxCoverage)) ∧
      (∀ g ∈ groups,
        ((survivingTriples tables.hashToIndex tables.indexCoverage maxCoverage g.2).map
          Prod.snd).Sublist (g.2.map Prod.snd)) := by
  refine ⟨?_, compactionPass_groups tables maxCoverage hin groups, ?_⟩
  · intro g _ rest
    have := readTriples_fields tables.hashToIndex tables.indexCoverage maxCoverage hin g.2 [] rest
    simpa using this
  · intro g _
    exact offsets_sublist _ _ _ _

/-- Witness of C3: a file of two groups, the second of which loses all its triples. -/
theorem compaction_order_witness :
    InBounds sampleTables.hashToIndex sampleTables.indexCoverage ∧
    (∃ c, compactionPass sampleTables 4 (sampleGroups.flatMap groupFields) = some c ∧
      c.indexFile = sampleGroups.filterMap
        (expectedRecord sampleTables.hashToIndex sampleTables.indexCoverage 4)) :=
  ⟨by unfold InBounds; decide,
    (compaction_order sampleTables 4 (by unfold InBounds; decide) sampleGroups).2.1⟩

/-- C4 (read preservation). With `numHashPasses >= 1`, at most `2 ^ 32` reads and fewer than
`2 ^ 32` triples per read (so that read ids and counts fit their 32-bit fields), the program
returns, and for every read of the corpus: if at least one of its triples survives, the index
file has exactly one record with its id, whose count is the number of surviving triples and
whose triples are the surviving triples; if none survives, no record has its id. -/
theorem read_preservation (cfg : Config) (corpus : List Read) (hN : 1 ≤ cfg.numHashPasses)
    (hreads : corpus.length ≤ 2 ^ 32) (hlen : ∀ r ∈ corpus, r.hashes.length < 2 ^ 32) :
    ∃ out, main cfg corpus = some out ∧
      ∀ (i : Nat) (r : Read), corpus[i]? = some r →
        out.compaction.indexFile.filter (fun rec => rec.read = i)
          = if survivingTriples (resolved cfg corpus).hashToIndex
                (resolved cfg corpus).indexCoverage cfg.maxCoverage r.hashes = [] then []
            else
              [{ read := i
                 count := (survivingTriples (resolved cfg corpus).hashToIndex
                   (resolved cfg corpus).indexCoverage cfg.maxCoverage r.hashes).length
                 hashes := survivingTriples (resolved cfg corpus).hashToIndex
                   (resolved cfg corpus).indexCoverage cfg.maxCoverage r.hashes }] := by
  have _ := hN
  obtain ⟨out, hout, -, -, hfile⟩ := main_indexFile cfg corpus hlen
  refine ⟨out, hout, ?_⟩
  intro i r hr
  rw [hfile, filter_read_groupsFrom _ _ _ corpus 0 i (by omega), if_pos (Nat.zero_le _),
    Nat.sub_zero, hr, Option.some_bind]
  have hmem : r ∈ corpus := List.getElem?_mem hr
  have hle := length_survivingTriples_le (resolved cfg corpus).hashToIndex
    (resolved cfg corpus).indexCoverage cfg.maxCoverage r.hashes
  have hlt := hlen r hmem
  unfold expectedRecord
  simp only
  by_cases hs : survivingTriples (resolved cfg corpus).hashToIndex
      (resolved cfg corpus).indexCoverage cfg.maxCoverage r.hashes = []
  · simp [hs]
  · have h0 : ¬ (survivingTriples (resolved cfg corpus).hashToIndex
        (resolved cfg corpus).indexCoverage cfg.maxCoverage r.hashes).length = 0 :=
      fun h => hs (List.length_eq_zero.mp h)
    rw [if_neg h0, if_neg hs, Nat.mod_eq_of_lt (by omega)]
    rfl

/-- Witness of C4: the sample corpus with threshold 2, where read 1 keeps no triple. -/
theorem read_preservation_witness :
    (1 ≤ 2 ∧ sampleCorpus.length ≤ 2 ^ 32 ∧ ∀ r ∈ sampleCorpus, r.hashes.length < 2 ^ 32) ∧
    ∃ out, main { sampleConfig with maxCoverage := 2 } sampleCorpus = some out ∧
      ∀ (i : Nat) (r : Read), sampleCorpus[i]? = some r →
        out.compaction.indexFile.filter (fun rec => rec.read = i)
          = if survivingTriples (resolved { sampleConfig with maxCoverage := 2 } sampleCorpus).hashToIndex
                (resolved { sampleConfig with maxCoverage := 2 } sampleCorpus).indexCoverage 2
                r.hashes = [] then []
            else
              [{ read := i
                 count := (survivingTriples
                   (resolved { sampleConfig with maxCoverage := 2 } sampleCorpus).hashToIndex
                   (resolved { sampleConfig with maxCoverage := 2 } sampleCorpus).indexCoverage 2
                   r.hashes).length
                 hashes := survivingTriples
                   (resolved { sampleConfig with maxCoverage := 2 } sampleCorpus).hashToIndex
                   (resolved { sampleConfig with maxCoverage := 2 } sampleCorpus).indexCoverage 2
                   r.hashes }] :=
  ⟨by decide,
    read_preservation { sampleConfig with maxCoverage := 2 } sampleCorpus (by decide) (by decide)
      (by decide)⟩

/-- C5, counterexample: on the sample corpus with threshold 2 the count field of the metadata
is 2, while only one compact index has coverage at most 2. -/
theorem metadata_count_counterexample :
    (main { sampleConfig with maxCoverage := 2 } sampleCorpus).map
        (fun out => (out.metadata.maxCoverage, out.metadata.countHashes)) = some (2, 2) ∧
      (resolved { sampleConfig with maxCoverage := 2 } sampleCorpus).indexCoverage.countP
        (fun c => decide (c ≤ 2)) = 1 := by
  decide

/-- C5 (metadata count, amended). With `numHashPasses >= 1` and fewer than `2 ^ 32` triples
per read, the program returns and the count field written after the threshold is the number
of all compact indices: the size of the index table, which is the number of distinct
fingerprints that occur at least twice, and the sum of the number of indices with coverage at
most the threshold and the number the filter reports as above it. -/
theorem metadata_count (cfg : Config) (corpus : List Read) (hN : 1 ≤ cfg.numHashPasses)
    (hlen : ∀ r ∈ corpus, r.hashes.length < 2 ^ 32) :
    ∃ out, main cfg corpus = some out ∧
      out.metadata.maxCoverage = cfg.maxCoverage ∧
      out.metadata.countHashes = (resolved cfg corpus).hashToIndex.length ∧
      out.metadata.countHashes = (indexedFingerprints corpus).length ∧
      out.metadata.countHashes
        = (resolved cfg corpus).indexCoverage.countP (fun c => decide (c ≤ cfg.maxCoverage))
          + out.filter.countAboveThreshold := by
  obtain ⟨out, hout, hfilter, hmeta, -⟩ := main_indexFile cfg corpus hlen
  have inv := (resolved_inv cfg corpus).1
  refine ⟨out, hout, ?_, ?_, ?_, ?_⟩
  · rw [hmeta]; rfl
  · rw [hmeta]; rfl
  · rw [hmeta]
    show (resolved cfg corpus).hashToIndex.length = _
    rw [length_tab_eq _ _ _ inv, length_secondSightings_ingest cfg corpus hN]
  · rw [hmeta, hfilter, (coverageFilter_fields _ _).2.2.1, countP_le_add_countP_gt]
    exact inv.covLen.symm

/-- Witness of C5 (amended): the sample corpus with threshold 2. -/
theorem metadata_count_witness :
    (1 ≤ 2 ∧ ∀ r ∈ sampleCorpus, r.hashes.length < 2 ^ 32) ∧
    ∃ out, main { sampleConfig with maxCoverage := 2 } sampleCorpus = some out ∧
      out.metadata.maxCoverage = 2 ∧
      out.metadata.countHashes
        = (resolved { sampleConfig with maxCoverage := 2 } sampleCorpus).hashToIndex.length ∧
      out.metadata.countHashes = (indexedFingerprints sampleCorpus).length ∧
      out.metadata.countHashes
        = (resolved { sampleConfig with maxCoverage := 2 } sampleCorpus).indexCoverage.countP
            (fun c => decide (c ≤ 2))
          + out.filter.countAboveThreshold :=
  ⟨by decide,
    metadata_count { sampleConfig with maxCoverage := 2 } sampleCorpus (by decide) (by decide)⟩

/-- C6, the code at the failing inputs: the sample corpus has four reads but the read count
of the metadata is 3 and the last read has no entry; in the gap corpus the first read has
sequence length 4 (and 4 runs) but its metadata entry has length 0, although the storage has
recorded the raw length 4 for it. -/
theorem metadata_reads_failing :
    (sampleCorpus.length = 4 ∧
      (main sampleConfig sampleCorpus).map (fun out => out.metadata.countReads) = some 3 ∧
      (main sampleConfig sampleCorpus).map (fun out => out.metadata.reads.length) = some 3) ∧
    (gapCorpus[0]?.map (fun r => readLength true r.sequence) = some 4 ∧
      gapCorpus[0]?.map (fun r => readLength false r.sequence) = some 4 ∧
      (main sampleConfig gapCorpus).map (fun out => out.metadata.reads[0]?.map Prod.fst)
        = some (some 0) ∧
      (main { sampleConfig with hpc := false } gapCorpus).map
        (fun out => out.metadata.reads[0]?.map Prod.fst) = some (some 0) ∧
      (ingest sampleConfig gapCorpus).rawReadLengths = [4, 4]) := by
  decide

/-- C7 (coverage filter report). For every pair of tables and every threshold, the filter
leaves `countAboveThreshold` at the number of coverage entries above the threshold,
`maxHashCoverage` at the maximum over all entries (0 for an empty table: it bounds every
entry and is one of them unless the table is empty) and `maxIndexedCoverage` at the maximum
over the entries that are at most the threshold (0 when there is none: it bounds every such
entry and is one of them unless there is none); the coverage table and the index table are
unchanged. -/
theorem coverage_filter_report (tables : Tables) (maxCoverage : Nat) :
    (coverageFilter maxCoverage tables).countAboveThreshold
        = (tables.indexCoverage.filter (fun c => decide (c > maxCoverage))).length ∧
      ((∀ c ∈ tables.indexCoverage, c ≤ (coverageFilter maxCoverage tables).maxHashCoverage) ∧
        (tables.indexCoverage = [] → (coverageFilter maxCoverage tables).maxHashCoverage = 0) ∧
        (tables.indexCoverage ≠ [] →
          (coverageFilter maxCoverage tables).maxHashCoverage ∈ tables.indexCoverage)) ∧
      ((∀ c ∈ tables.indexCoverage, c ≤ maxCoverage →
          c ≤ (coverageFilter maxCoverage tables).maxIndexedCoverage) ∧
        ((∀ c ∈ tables.indexCoverage, maxCoverage < c) →
          (coverageFilter maxCoverage tables).maxIndexedCoverage = 0) ∧
        ((∃ c ∈ tables.indexCoverage, c ≤ maxCoverage) →
          (coverageFilter maxCoverage tables).maxIndexedCoverage ∈ tables.indexCoverage ∧
          (coverageFilter maxCoverage tables).maxIndexedCoverage ≤ maxCoverage)) ∧
      (coverageFilter maxCoverage tables).indexCoverage = tables.indexCoverage ∧
      (coverageFilter maxCoverage tables).hashToIndex = tables.hashToIndex := by
  obtain ⟨h1, h2, h3, h4, h5⟩ := coverageFilter_fields maxCoverage tables
  refine ⟨?_, ⟨?_, ?_, ?_⟩, ⟨?_, ?_, ?_⟩, h2, h1⟩
  · rw [h3, List.countP_eq_length_filter]
  · rw [h4]; exact le_foldr_max _
  · intro he; rw [h4, he]; rfl
  · intro hne; rw [h4]; exact foldr_max_mem _ hne
  · intro c hc hle
    rw [h5]
    exact le_foldr_max _ c (List.mem_filter.mpr ⟨hc, by simpa using hle⟩)
  · intro hall
    have hnil : tables.indexCoverage.filter (fun c => decide (c ≤ maxCoverage)) = [] := by
      rw [List.filter_eq_nil_iff]
      intro c hc
      have := hall c hc
      simp only [decide_eq_true_eq]
      omega
    rw [h5, hnil]
    rfl
  · rintro ⟨c, hc, hle⟩
    have hne : tables.indexCoverage.filter (fun c => decide (c ≤ maxCoverage)) ≠ [] := by
      intro hnil
      have hmem : c ∈ tables.indexCoverage.filter (fun c => decide (c ≤ maxCoverage)) :=
        List.mem_filter.mpr ⟨hc, by simpa using hle⟩
      rw [hnil] at hmem
      cases hmem
    have hmem := foldr_max_mem _ hne
    rw [← h5, List.mem_filter] at hmem
    exact ⟨hmem.1, by simpa using hmem.2⟩

/-- C8 (monotone filtering). For every pair of tables whose stored indices are positions of
the coverage table and all thresholds `t1 <= t2`: the number of kept indices (table size
minus `countAboveThreshold`, which is the number of entries at most the threshold) under
`t1` is at most the number under `t2`; for every read group the triple loop under `t1` and
under `t2` both return, and the triples collected under `t1` are a sub-list of those
collected under `t2`.  For the tables the resolver builds from any corpus, the default
threshold `sizeMax` discards no index: `countAboveThreshold` is 0, the kept count is the
size of the index table, and the surviving triples of any read are all its triples whose
fingerprint has a compact index. -/
theorem monotone_filtering (tables : Tables) (t1 t2 : Nat) (h12 : t1 ≤ t2)
    (hin : InBounds tables.hashToIndex tables.indexCoverage) :
    (tables.indexCoverage.length - (coverageFilter t1 tables).countAboveThreshold
        = tables.indexCoverage.countP (fun c => decide (c ≤ t1)) ∧
      tables.indexCoverage.length - (coverageFilter t2 tables).countAboveThreshold
        = tables.indexCoverage.countP (fun c => decide (c ≤ t2)) ∧
      tables.indexCoverage.length - (coverageFilter t1 tables).countAboveThreshold
        ≤ tables.indexCoverage.length - (coverageFilter t2 tables).countAboveThreshold) ∧
      (∀ (triples : List HashTriple) (rest : List Nat), ∃ s1 s2,
        readTriples tables.hashToIndex tables.indexCoverage t1 triples.length
            (triples.flatMap tripleFields ++ rest) [] = some (s1, rest) ∧
        readTriples tables.hashToIndex tables.indexCoverage t2 triples.length
            (triples.flatMap tripleFields ++ rest) [] = some (s2, rest) ∧
        s1.Sublist s2) ∧
      (∀ (cfg : Config) (corpus : List Read),
        (coverageFilter sizeMax (resolved cfg corpus)).countAboveThreshold = 0 ∧
        (resolved cfg corpus).indexCoverage.length
            - (coverageFilter sizeMax (resolved cfg corpus)).countAboveThreshold
          = (resolved cfg corpus).hashToIndex.length ∧
        ∀ triples : List HashTriple,
          survivingTriples (resolved cfg corpus).hashToIndex (resolved cfg corpus).indexCoverage
              sizeMax triples
            = triples.filterMap (fun t =>
                ((resolved cfg corpus).hashToIndex.lookup t.1).map
                  (fun index => (index, t.2.1, t.2.2)))) := by
  refine ⟨⟨kept_count t1 tables, kept_count t2 tables, ?_⟩, ?_, ?_⟩
  · rw [kept_count, kept_count]
    apply List.countP_mono_left
    intro c _ hc
    simp only [decide_eq_true_eq] at hc ⊢
    omega
  · intro triples rest
    refine ⟨survivingTriples tables.hashToIndex tables.indexCoverage t1 triples,
      survivingTriples tables.hashToIndex tables.indexCoverage t2 triples, ?_, ?_,
      survivingTriples_mono _ _ t1 t2 h12 triples⟩
    · simpa using readTriples_fields tables.hashToIndex tables.indexCoverage t1 hin triples [] rest
    · simpa using readTriples_fields tables.hashToIndex tables.indexCoverage t2 hin triples [] rest
  · intro cfg corpus
    have hb := resolved_cov_lt cfg corpus
    have h0 : (coverageFilter sizeMax (resolved cfg corpus)).countAboveThreshold = 0 := by
      rw [(coverageFilter_fields sizeMax (resolved cfg corpus)).2.2.1]
      exact countP_gt_sizeMax _ hb
    refine ⟨h0, ?_, survivingTriples_sizeMax _ _ hb⟩
    rw [h0, Nat.sub_zero]
    exact (resolved_inv cfg corpus).1.covLen

/-- Witness of C8: thresholds 2 and 5 on the sample tables. -/
theorem monotone_filtering_witness :
    (2 ≤ 5 ∧ InBounds sampleTables.hashToIndex sampleTables.indexCoverage) ∧
    sampleTables.indexCoverage.length - (coverageFilter 2 sampleTables).countAboveThreshold
      ≤ sampleTables.indexCoverage.length - (coverageFilter 5 sampleTables).countAboveThreshold :=
  ⟨⟨by decide, by unfold InBounds; decide⟩,
    (monotone_filtering sampleTables 2 5 (by decide) (by unfold InBounds; decide)).1.2.2⟩

/-- C9 (normalized length). The callback records a length only for a read with at least one
triple (it returns at line 83 otherwise), and a triple comes from a window of the sequence,
so such a read has a non-empty sequence.  For a read with at least one triple, the length
recorded at the read's id is: with the flag set, for every non-empty sequence, the number of
maximal runs of identical consecutive symbols of the sequence; with the flag not set, for
every sequence, its raw length. -/
theorem normalized_length (cfg : Config) (st : Ingest) (readName : Nat) (r : Read)
    (hh : r.hashes ≠ []) :
    (cfg.hpc = true → r.sequence ≠ [] →
        (indexRead cfg st readName r).readLengths[readName]?
          = some (maximalRuns r.sequence).length) ∧
      (cfg.hpc = false →
        (indexRead cfg st readName r).readLengths[readName]? = some r.sequence.length) := by
  rw [indexRead_readLengths cfg st readName r hh, getElem?_setReadLength]
  constructor
  · intro hpc hs
    rw [hpc, readLength, if_pos rfl, hpcLoop_eq_runs _ hs]
  · intro hpc
    rw [hpc, readLength]
    rfl

/-- Witness of C9: a read with sequence AACG, which has three runs and raw length 4. -/
theorem normalized_length_witness :
    ([(7, 0, 3)] : List HashTriple) ≠ [] ∧ "AACG".toList ≠ [] ∧
    (indexRead sampleConfig (Ingest.init sampleConfig) 0
      { name := "r".toList, sequence := "AACG".toList, hashes := [(7, 0, 3)] }).readLengths[0]?
        = some 3 ∧
    (indexRead { sampleConfig with hpc := false } (Ingest.init sampleConfig) 0
      { name := "r".toList, sequence := "AACG".toList, hashes := [(7, 0, 3)] }).readLengths[0]?
        = some 4 :=
  ⟨by decide, by decide,
    (normalized_length sampleConfig (Ingest.init sampleConfig) 0
      { name := "r".toList, sequence := "AACG".toList, hashes := [(7, 0, 3)] }
      (by decide)).1 rfl (by decide),
    (normalized_length { sampleConfig with hpc := false } (Ingest.init sampleConfig) 0
      { name := "r".toList, sequence := "AACG".toList, hashes := [(7, 0, 3)] }
      (by decide)).2 rfl⟩

/-- C10 (compact index table invariant). With `numHashPasses >= 1`, at most `2 ^ 32` indexed
fingerprints and fewer than `2 ^ 64` triples, after every step of the resolver (`j`
fingerprints of partition file `i` consumed, the earlier files finished): the coverage table
is as long as the index table; the fingerprints of the index table are, in order, the
fingerprints that reached their second sighting, without repetition; their indices are
`0, 1, .., n - 1` in that order, so the `k`-th fingerprint to reach its second sighting has
index `k`; every coverage entry is at least 2; every index found in the table is in bounds of
the coverage table, is kept by the next step whatever fingerprint it reads, and is the index
of that fingerprint in the final table. -/
theorem index_table_invariant (cfg : Config) (corpus : List Read) (hN : 1 ≤ cfg.numHashPasses)
    (hfit : (indexedFingerprints corpus).length ≤ 2 ^ 32)
    (hlen : (allHashes corpus).length < 2 ^ 64) (i j : Nat) :
    (resolverAfter (ingest cfg corpus).tmpHashesFiles i j).indexCoverage.length
        = (resolverAfter (ingest cfg corpus).tmpHashesFiles i j).hashToIndex.length ∧
      (resolverAfter (ingest cfg corpus).tmpHashesFiles i j).hashToIndex.map Prod.fst
        = secondSightings (consumed (ingest cfg corpus).tmpHashesFiles i j) ∧
      ((resolverAfter (ingest cfg corpus).tmpHashesFiles i j).hashToIndex.map Prod.fst).Nodup ∧
      (resolverAfter (ingest cfg corpus).tmpHashesFiles i j).hashToIndex.map Prod.snd
        = List.range (resolverAfter (ingest cfg corpus).tmpHashesFiles i j).hashToIndex.length ∧
      (∀ k hash, (secondSightings (consumed (ingest cfg corpus).tmpHashesFiles i j))[k]? = some hash →
        (resolverAfter (ingest cfg corpus).tmpHashesFiles i j).hashToIndex.lookup hash = some k) ∧
      (∀ c ∈ (resolverAfter (ingest cfg corpus).tmpHashesFiles i j).indexCoverage, 2 ≤ c) ∧
      (∀ hash index,
        (resolverAfter (ingest cfg corpus).tmpHashesFiles i j).hashToIndex.lookup hash = some index →
          index < (resolverAfter (ingest cfg corpus).tmpHashesFiles i j).indexCoverage.length ∧
          (∀ next, (readHash (resolverAfter (ingest cfg corpus).tmpHashesFiles i j) next
            ).hashToIndex.lookup hash = some index) ∧
          (resolved cfg corpus).hashToIndex.lookup hash = some index) := by
  obtain ⟨-, inv, hcov⟩ :=
    resolverAfter_resolved (ingest cfg corpus).tmpHashesFiles (disjointFiles_ingest cfg corpus) i j
  obtain ⟨finv, -⟩ := resolved_inv cfg corpus
  have hfinal := length_secondSightings_ingest cfg corpus hN
  have hcons := length_secondSightings_consumed (ingest cfg corpus).tmpHashesFiles i j
  have hb : (resolverAfter (ingest cfg corpus).tmpHashesFiles i j).hashToIndex.length ≤ 2 ^ 32 := by
    rw [length_tab_eq _ _ _ inv]; omega
  have hbf : (resolved cfg corpus).hashToIndex.length ≤ 2 ^ 32 := by
    rw [length_tab_eq _ _ _ finv]; omega
  have hcov := hcov (by omega)
  refine ⟨inv.covLen, inv.keys, inv.keys ▸ nodup_secondSightings _,
    vals_eq_range _ _ _ inv hb, ?_, ?_, ?_⟩
  · intro k hash hk
    have hlt : k < (secondSightings (consumed (ingest cfg corpus).tmpHashesFiles i j)).length := by
      by_contra hc
      rw [List.getElem?_eq_none (by omega)] at hk
      cases hk
    rw [List.getElem?_eq_getElem hlt] at hk
    have := lookup_of_tablesInv _ _ _ inv hb k hlt
    rwa [Option.some.inj hk] at this
  · intro c hc
    unfold CovInv at hcov
    rw [hcov, List.mem_map] at hc
    obtain ⟨e, he, rfl⟩ := hc
    have hmem : e.1 ∈ secondSightings (consumed (ingest cfg corpus).tmpHashesFiles i j) :=
      inv.keys ▸ List.mem_map_of_mem Prod.fst he
    rw [mem_secondSightings] at hmem
    have h1 := count_consumed_le (ingest cfg corpus).tmpHashesFiles i j e.1
    rw [count_ingest_files cfg corpus hN] at h1
    have h2 := List.count_le_length e.1 (allHashes corpus)
    rw [Nat.mod_eq_of_lt (by omega)]
    exact hmem
  · intro hash index hl
    refine ⟨?_, fun next => readHash_lookup _ next hash index hl, ?_⟩
    · rw [inv.covLen]; exact lookup_lt_of_vals _ _ _ inv.vals hl
    · have h1 := getElem_of_lookup _ _ _ inv hb hash index hl
      have h2 := secondSightings_consumed_getElem _ i j index hash h1
      have hlt : index < (secondSightings (ingest cfg corpus).tmpHashesFiles.flatten).length := by
        by_contra hc
        rw [List.getElem?_eq_none (by omega)] at h2
        cases h2
      rw [List.getElem?_eq_getElem hlt] at h2
      have := lookup_of_tablesInv _ _ _ finv hbf index hlt
      rwa [Option.some.inj h2] at this

/-- Witness of C10: the state after two fingerprints of the second partition file. -/
theorem index_table_invariant_witness :
    (1 ≤ sampleConfig.numHashPasses ∧ (indexedFingerprints sampleCorpus).length ≤ 2 ^ 32 ∧
      (allHashes sampleCorpus).length < 2 ^ 64) ∧
    (resolverAfter (ingest sampleConfig sampleCorpus).tmpHashesFiles 1 2).hashToIndex
      = [(8, 0), (7, 1)] ∧
    (∀ hash index,
      (resolverAfter (ingest sampleConfig sampleCorpus).tmpHashesFiles 1 2).hashToIndex.lookup hash
          = some index →
        (resolved sampleConfig sampleCorpus).hashToIndex.lookup hash = some index) :=
  ⟨by decide, by decide,
    fun hash index hl =>
      ((index_table_invariant sampleConfig sampleCorpus (by decide) (by decide) (by decide)
        1 2).2.2.2.2.2.2 hash index hl).2.2⟩

end MatchchainsIndex
